import Mathlib

/-!
Verification development for the jupyterhealth-client repository
(`jupyterhealth_client/_anonymize.py` and `jupyterhealth_client/_client.py`).

Python strings are modelled as `List Char`, Python ints as `Int`,
Python floats as exact rationals `ℚ`, Python dicts as ordered association
lists, and the module-level caches (`_jhe_id_cache`, `_reverse_id_cache`,
`_random_uuid.n`) as an explicit state record threaded through the
transforms.  Calls to `random.randint` are modelled by an oracle
`rng : Nat → Int` giving the trace of values the generator returned, and
the unbounded retry loop in `_random_id` is modelled with fuel, returning
`none` when the fuel is exhausted (the Python loop would still be
spinning).  Outputs of `faker` (names, dates) are oracle arguments.
-/

namespace JH

/-- Python strings, modelled as lists of characters. -/
abbrev Str := List Char

/-- Convert a Lean string literal to the model's string type. -/
def strC (s : String) : Str := s.toList

/-- The decimal digit character for `d % 10`, as produced by Python `str`. -/
def digitChar : Nat → Char
  | 0 => '0' | 1 => '1' | 2 => '2' | 3 => '3' | 4 => '4'
  | 5 => '5' | 6 => '6' | 7 => '7' | 8 => '8' | _ => '9'

/-- Accumulator version of decimal printing of a natural number.  The
first argument is structural-recursion fuel; any `fuel > n` is enough,
and `natToStr` supplies one. -/
def natToStrAux : Nat → Nat → Str → Str
  | 0, _, acc => acc
  | fuel + 1, n, acc =>
    if n < 10 then digitChar n :: acc
    else natToStrAux fuel (n / 10) (digitChar (n % 10) :: acc)

/-- Decimal printing of a natural number (`str(n)` for `n >= 0`). -/
def natToStr (n : Nat) : Str := natToStrAux (n + 1) n []

/-- `str(n)` for a Python int `n`: optional minus sign then digits. -/
def intToStr (n : Int) : Str :=
  if n < 0 then '-' :: natToStr n.natAbs else natToStr n.natAbs

/-- Numeric value of a decimal digit character, `none` on non-digits. -/
def digitVal (c : Char) : Option Nat :=
  if c = '0' then some 0 else if c = '1' then some 1
  else if c = '2' then some 2 else if c = '3' then some 3
  else if c = '4' then some 4 else if c = '5' then some 5
  else if c = '6' then some 6 else if c = '7' then some 7
  else if c = '8' then some 8 else if c = '9' then some 9
  else none

/-- Fold of decimal digits with an accumulator. -/
def parseNatGo : Str → Nat → Option Nat
  | [], acc => some acc
  | c :: cs, acc =>
    match digitVal c with
    | some d => parseNatGo cs (acc * 10 + d)
    | none => none

/-- Parse a nonempty all-digit string as a natural number. -/
def parseNat : Str → Option Nat
  | [] => none
  | c :: cs => parseNatGo (c :: cs) 0

/-- Python `int(s)` on the strings this program feeds it: an optionally
`-`-signed nonempty decimal numeral (the id part of a cache key).
Anything else is a `ValueError`, modelled as `none`. -/
def pyInt : Str → Option Int
  | [] => none
  | c :: cs =>
    if c = '-' then (parseNat cs).map (fun n => -(n : Int))
    else (parseNat (c :: cs)).map (fun n => (n : Int))

/-- Python `s.partition(sep)` restricted to a single-character separator,
which is all this program uses (`"/"`).  Returns the part before the
first occurrence and, when the separator occurs, the part after it. -/
def partitionFirst (sep : Char) : Str → Str × Option Str
  | [] => ([], none)
  | c :: cs =>
    if c = sep then ([], some cs)
    else
      let r := partitionFirst sep cs
      (c :: r.1, r.2)

theorem digitVal_digitChar (d : Nat) (hd : d < 10) :
    digitVal (digitChar d) = some d := by
  interval_cases d <;> rfl

/-- Powers of ten matching the digit count of `n` in `natToStrAux`. -/
def pow10 (n : Nat) : Nat :=
  if h : n < 10 then 10 else pow10 (n / 10) * 10
  termination_by n
  decreasing_by
    exact Nat.div_lt_self (by omega) (by omega)

theorem parseNatGo_natToStrAux (fuel : Nat) :
    ∀ n, n < fuel → ∀ acc rest, parseNatGo (natToStrAux fuel n rest) acc =
      parseNatGo rest (acc * pow10 n + n) := by
  induction fuel with
  | zero => intro n hn; omega
  | succ fuel ih =>
    intro n hn acc rest
    by_cases h : n < 10
    · rw [natToStrAux, if_pos h, pow10, dif_pos h]
      simp [parseNatGo, digitVal_digitChar n h]
    · rw [natToStrAux, if_neg h, pow10, dif_neg h]
      rw [ih (n / 10) (by omega)]
      have hstep : parseNatGo (digitChar (n % 10) :: rest) (acc * pow10 (n / 10) + n / 10)
          = parseNatGo rest ((acc * pow10 (n / 10) + n / 10) * 10 + n % 10) := by
        simp [parseNatGo, digitVal_digitChar (n % 10) (Nat.mod_lt _ (by omega))]
      rw [hstep]
      congr 1
      have hn10 : n / 10 * 10 + n % 10 = n := by omega
      ring_nf
      omega

theorem natToStrAux_ne_nil (fuel n : Nat) (hn : n < fuel) (acc : Str) :
    natToStrAux fuel n acc ≠ [] := by
  induction fuel generalizing n acc with
  | zero => omega
  | succ fuel ih =>
    rw [natToStrAux]
    by_cases h : n < 10
    · rw [if_pos h]; simp
    · rw [if_neg h]; exact ih (n / 10) (by omega) _

theorem parseNat_natToStr (n : Nat) : parseNat (natToStr n) = some n := by
  unfold natToStr
  rcases h : natToStrAux (n + 1) n [] with _ | ⟨c, cs⟩
  · exact absurd h (natToStrAux_ne_nil (n + 1) n (by omega) [])
  · have := parseNatGo_natToStrAux (n + 1) n (by omega) 0 []
    rw [h] at this
    simpa [parseNat, parseNatGo, this] using this

/-- The first character printed for a natural number is a digit. -/
theorem natToStrAux_head_digit (fuel n : Nat) (hn : n < fuel) (acc : Str) :
    ∃ d, d < 10 ∧ ∃ rest, natToStrAux fuel n acc = digitChar d :: rest := by
  induction fuel generalizing n acc with
  | zero => omega
  | succ fuel ih =>
    rw [natToStrAux]
    by_cases h : n < 10
    · rw [if_pos h]; exact ⟨n, h, acc, rfl⟩
    · rw [if_neg h]
      exact ih (n / 10) (by omega) _

theorem pyInt_intToStr (n : Int) : pyInt (intToStr n) = some n := by
  unfold intToStr
  by_cases h : n < 0
  · rw [if_pos h]
    have h1 := parseNat_natToStr n.natAbs
    have h2 : ((n.natAbs : Nat) : Int) = -n :=
      Int.ofNat_natAbs_of_nonpos (le_of_lt h)
    simp [pyInt, h1, h2]
  · rw [if_neg h]
    have h1 := parseNat_natToStr n.natAbs
    rcases hh : natToStr n.natAbs with _ | ⟨c, cs⟩
    · exact absurd hh (natToStrAux_ne_nil (n.natAbs + 1) n.natAbs (by omega) [])
    · rw [hh] at h1
      have hc : c ≠ '-' := by
        obtain ⟨d, hd, rest, hrest⟩ :=
          natToStrAux_head_digit (n.natAbs + 1) n.natAbs (by omega) []
        rw [natToStr] at hh
        rw [hrest] at hh
        cases hh
        interval_cases d <;> simp [digitChar]
      have h2 : ((n.natAbs : Nat) : Int) = n := Int.natAbs_of_nonneg (by omega)
      simp only [pyInt, if_neg hc]
      rw [h1]
      simp [h2]

/-- `partitionFirst` splits a string at its first separator occurrence. -/
theorem partitionFirst_append (sep : Char) (a b : Str) (ha : sep ∉ a) :
    partitionFirst sep (a ++ sep :: b) = (a, some b) := by
  induction a with
  | nil => simp [partitionFirst]
  | cons c cs ih =>
    have hc : c ≠ sep := by
      intro he; exact ha (by simp [he])
    have hcs : sep ∉ cs := fun hm => ha (List.mem_cons_of_mem _ hm)
    simp [partitionFirst, hc, ih hcs]

/-- Association-list lookup with string keys, modelling a Python dict
lookup in `_jhe_id_cache` (newest binding first; the model only prepends
bindings for keys that are absent, matching dict insertion). -/
def lookupKey : List (Str × Int) → Str → Option Int
  | [], _ => none
  | (k, v) :: rest, key => if k = key then some v else lookupKey rest key

/-- Association-list lookup with integer keys (`_reverse_id_cache`). -/
def lookupRev : List (Int × Str) → Int → Option Str
  | [], _ => none
  | (k, v) :: rest, key => if k = key then some v else lookupRev rest key

/-- The module-level mutable state of `_anonymize.py`: the two id caches
and the `_random_uuid.n` counter, plus the count of `random.randint`
draws consumed so far (the index into the `rng` oracle). -/
structure AnonState where
  jhe : List (Str × Int)
  rev : List (Int × Str)
  ctr : Nat
  uuidN : Nat
  deriving Repr, DecidableEq

/-- The state at interpreter start: both caches empty, counters zero. -/
def initState : AnonState := ⟨[], [], 0, 0⟩

/-- The collision-retry loop of `_random_id`:
`new_id = random.randint(...); while new_id in _reverse_id_cache: ...`.
`rng c` is the value the `c`-th `randint` call returned; the loop is
given fuel and returns `none` if no free id is found in time (the
Python loop would still be running). -/
def freshDraw (rng : Nat → Int) : Nat → Nat → List (Int × Str) → Option (Int × Nat)
  | 0, _, _ => none
  | fuel + 1, c, rev =>
    let v := rng c
    if (lookupRev rev v).isSome then freshDraw rng fuel (c + 1) rev
    else some (v, c + 1)

/-- `_random_id(id, kind, start)`.  `idStr` is the f-string rendering of
the `id` argument (the program passes ints, for which it is `intToStr`,
and — for observation ids — decimal strings, which render as themselves).
The `start` argument only parametrizes the `randint` range, which the
`rng` trace already reflects, so it does not appear. -/
def randomId (rng : Nat → Int) (fuel : Nat) (idStr : Str) (kind : Str)
    (s : AnonState) : Option (AnonState × Int) :=
  match lookupKey s.jhe (kind ++ '/' :: idStr) with
  | some v => some (s, v)
  | none =>
    match freshDraw rng fuel s.ctr s.rev with
    | none => none
    | some (v, c) =>
      some ({ s with jhe := (kind ++ '/' :: idStr, v) :: s.jhe,
                     rev := (v, kind ++ '/' :: idStr) :: s.rev, ctr := c }, v)

/-- `deanonymize_id(id)`.  Returns `none` when Python would raise
(`int()` on a malformed id part of a cached key). -/
def deanonymizeId (s : AnonState) (id : Int) : Option Int :=
  match lookupRev s.rev id with
  | none => some id
  | some idKey =>
    match (partitionFirst '/' idKey).2 with
    | some realId => pyInt realId
    | none => pyInt []

/-- `_random_uuid()`: increments the module counter and returns
`"u-u-i-d-{n}"`. -/
def randomUuid (s : AnonState) : Str × AnonState :=
  let n := s.uuidN + 1
  (strC "u-u-i-d-" ++ natToStr n, { s with uuidN := n })

/-- Consistency of the two caches, as maintained by `_random_id`: a
forward binding always has the matching reverse binding. -/
def WF (s : AnonState) : Prop :=
  ∀ key v, lookupKey s.jhe key = some v → lookupRev s.rev v = some key

theorem WF_initState : WF initState := by
  intro key v h
  simp [initState, lookupKey] at h

theorem freshDraw_not_mem (rng : Nat → Int) (fuel c : Nat) (rev : List (Int × Str))
    (v : Int) (c' : Nat) (h : freshDraw rng fuel c rev = some (v, c')) :
    lookupRev rev v = none := by
  induction fuel generalizing c with
  | zero => simp [freshDraw] at h
  | succ fuel ih =>
    rw [freshDraw] at h
    by_cases hv : (lookupRev rev (rng c)).isSome
    · rw [if_pos hv] at h
      exact ih (c + 1) h
    · rw [if_neg hv] at h
      cases h
      exact Option.not_isSome_iff_eq_none.mp hv

/-- `_random_id` preserves cache consistency. -/
theorem randomId_WF (rng : Nat → Int) (fuel : Nat) (idStr kind : Str)
    (s s' : AnonState) (v : Int)
    (hwf : WF s) (h : randomId rng fuel idStr kind s = some (s', v)) :
    WF s' := by
  unfold randomId at h
  rcases hl : lookupKey s.jhe (kind ++ '/' :: idStr) with _ | w
  · rw [hl] at h
    rcases hd : freshDraw rng fuel s.ctr s.rev with _ | ⟨u, c⟩
    · rw [hd] at h; simp at h
    · rw [hd] at h
      cases h
      have hfresh := freshDraw_not_mem rng fuel s.ctr s.rev v c hd
      intro key w hk
      simp only [lookupKey] at hk
      by_cases hkey : kind ++ '/' :: idStr = key
      · rw [if_pos hkey] at hk
        cases hk
        simp [lookupRev, hkey]
      · rw [if_neg hkey] at hk
        have hv : v ≠ w := by
          intro he
          have hw := hwf key w hk
          rw [← he] at hw
          rw [hw] at hfresh
          cases hfresh
        simp only [lookupRev, if_neg hv]
        exact hwf key w hk
  · rw [hl] at h
    cases h
    exact hwf

/-- A forward binding persists across any later `_random_id` call. -/
theorem randomId_mono_jhe (rng : Nat → Int) (fuel : Nat) (idStr kind : Str)
    (s s' : AnonState) (v : Int) (h : randomId rng fuel idStr kind s = some (s', v))
    (key : Str) (w : Int) (hk : lookupKey s.jhe key = some w) :
    lookupKey s'.jhe key = some w := by
  unfold randomId at h
  rcases hl : lookupKey s.jhe (kind ++ '/' :: idStr) with _ | u
  · rw [hl] at h
    rcases hd : freshDraw rng fuel s.ctr s.rev with _ | ⟨u, c⟩
    · rw [hd] at h; simp at h
    · rw [hd] at h
      cases h
      have hne : kind ++ '/' :: idStr ≠ key := by
        intro he
        rw [he, hk] at hl
        cases hl
      simp [lookupKey, hne, hk]
  · rw [hl] at h
    cases h
    exact hk

/-- A reverse binding persists across any later `_random_id` call. -/
theorem randomId_mono_rev (rng : Nat → Int) (fuel : Nat) (idStr kind : Str)
    (s s' : AnonState) (v : Int) (h : randomId rng fuel idStr kind s = some (s', v))
    (w : Int) (key : Str) (hk : lookupRev s.rev w = some key) :
    lookupRev s'.rev w = some key := by
  unfold randomId at h
  rcases hl : lookupKey s.jhe (kind ++ '/' :: idStr) with _ | u
  · rw [hl] at h
    rcases hd : freshDraw rng fuel s.ctr s.rev with _ | ⟨u, c⟩
    · rw [hd] at h; simp at h
    · rw [hd] at h
      cases h
      have hfresh := freshDraw_not_mem rng fuel s.ctr s.rev v c hd
      have hne : v ≠ w := by
        intro he
        rw [he, hk] at hfresh
        cases hfresh
      simp only [lookupRev, if_neg hne]
      exact hk
  · rw [hl] at h
    cases h
    exact hk

/-- The key a successful `_random_id` call binds in the forward cache. -/
theorem randomId_jhe_binding (rng : Nat → Int) (fuel : Nat) (idStr kind : Str)
    (s s' : AnonState) (v : Int) (h : randomId rng fuel idStr kind s = some (s', v)) :
    lookupKey s'.jhe (kind ++ '/' :: idStr) = some v := by
  unfold randomId at h
  rcases hl : lookupKey s.jhe (kind ++ '/' :: idStr) with _ | u
  · rw [hl] at h
    rcases hd : freshDraw rng fuel s.ctr s.rev with _ | ⟨u, c⟩
    · rw [hd] at h; simp at h
    · rw [hd] at h
      cases h
      simp [lookupKey]
  · rw [hl] at h
    cases h
    exact hl

/-- The reverse binding a successful `_random_id` call guarantees. -/
theorem randomId_rev_binding (rng : Nat → Int) (fuel : Nat) (idStr kind : Str)
    (s s' : AnonState) (v : Int) (hwf : WF s)
    (h : randomId rng fuel idStr kind s = some (s', v)) :
    lookupRev s'.rev v = some (kind ++ '/' :: idStr) := by
  unfold randomId at h
  rcases hl : lookupKey s.jhe (kind ++ '/' :: idStr) with _ | u
  · rw [hl] at h
    rcases hd : freshDraw rng fuel s.ctr s.rev with _ | ⟨u, c⟩
    · rw [hd] at h; simp at h
    · rw [hd] at h
      cases h
      simp [lookupRev]
  · rw [hl] at h
    cases h
    exact hwf _ _ hl

/-- States reachable from `s` by further anonymization activity: any
sequence of `_random_id` and `_random_uuid` calls. -/
inductive Reach : AnonState → AnonState → Prop
  | refl (s : AnonState) : Reach s s
  | stepId (s₁ s₂ s₃ : AnonState) (rng : Nat → Int) (fuel : Nat) (idStr kind : Str)
      (v : Int) : randomId rng fuel idStr kind s₁ = some (s₂, v) →
      Reach s₂ s₃ → Reach s₁ s₃
  | stepUuid (s₁ s₃ : AnonState) : Reach (randomUuid s₁).2 s₃ → Reach s₁ s₃

theorem Reach_mono_jhe (s s' : AnonState) (h : Reach s s')
    (key : Str) (v : Int) (hk : lookupKey s.jhe key = some v) :
    lookupKey s'.jhe key = some v := by
  induction h with
  | refl => exact hk
  | stepId s₁ s₂ s₃ rng fuel idStr kind v' hstep _ ih =>
    exact ih (randomId_mono_jhe rng fuel idStr kind s₁ s₂ v' hstep key v hk)
  | stepUuid s₁ s₃ _ ih => exact ih hk

theorem Reach_mono_rev (s s' : AnonState) (h : Reach s s')
    (v : Int) (key : Str) (hk : lookupRev s.rev v = some key) :
    lookupRev s'.rev v = some key := by
  induction h with
  | refl => exact hk
  | stepId s₁ s₂ s₃ rng fuel idStr kind v' hstep _ ih =>
    exact ih (randomId_mono_rev rng fuel idStr kind s₁ s₂ v' hstep v key hk)
  | stepUuid s₁ s₃ _ ih => exact ih hk

theorem Reach_WF (s s' : AnonState) (h : Reach s s') (hwf : WF s) : WF s' := by
  induction h with
  | refl => exact hwf
  | stepId s₁ s₂ s₃ rng fuel idStr kind v hstep _ ih =>
    exact ih (randomId_WF rng fuel idStr kind s₁ s₂ v hwf hstep)
  | stepUuid s₁ s₃ _ ih => exact ih hwf

/-- C1: with a consistent cache and a slash-free kind (the program only
ever maps kinds `"User"`, `"Patient"`, `"Observation"`, or the prefix of
a reference before its first `/`, none of which contain `/`), reverse
lookup of a synthetic id produced by `_random_id` recovers the original
numeric id at any later state; and reverse lookup of an id the reverse
cache does not hold returns the id unchanged. -/
theorem C1_reversibility_and_passthrough :
    (∀ (rng : Nat → Int) (fuel : Nat) (id : Int) (kind : Str) (s s₁ s₂ : AnonState)
      (v : Int), WF s → '/' ∉ kind →
      randomId rng fuel (intToStr id) kind s = some (s₁, v) →
      Reach s₁ s₂ →
      deanonymizeId s₂ v = some id) ∧
    (∀ (s : AnonState) (id : Int), lookupRev s.rev id = none →
      deanonymizeId s id = some id) := by
  constructor
  · intro rng fuel id kind s s₁ s₂ v hwf hkind hrun hreach
    have hbind := randomId_rev_binding rng fuel (intToStr id) kind s s₁ v hwf hrun
    have hbind₂ := Reach_mono_rev s₁ s₂ hreach v _ hbind
    unfold deanonymizeId
    rw [hbind₂]
    have hp := partitionFirst_append '/' kind (intToStr id) hkind
    simp [hp, pyInt_intToStr id]
  · intro s id hnone
    unfold deanonymizeId
    rw [hnone]

/-- Witness for C1 at a concrete run: mapping `("Patient", 45439)` with
the draw trace returning `41000`, then reverse-looking up `41000`
returns `45439`; and `7`, never produced, passes through. -/
theorem C1_witness :
    deanonymizeId ⟨[(strC "Patient/45439", 41000)], [(41000, strC "Patient/45439")], 1, 0⟩
      41000 = some 45439 ∧
    deanonymizeId initState 7 = some 7 :=
  ⟨C1_reversibility_and_passthrough.1 (fun _ => 41000) 1 45439 (strC "Patient")
      initState
      ⟨[(strC "Patient/45439", 41000)], [(41000, strC "Patient/45439")], 1, 0⟩
      ⟨[(strC "Patient/45439", 41000)], [(41000, strC "Patient/45439")], 1, 0⟩
      41000 WF_initState (by decide) (by decide) (Reach.refl _),
    C1_reversibility_and_passthrough.2 initState 7 (by decide)⟩

/-- Scalar values of the flat user/patient records (strings, ints,
`None`). -/
inductive PyV
  | vstr : Str → PyV
  | vint : Int → PyV
  | vnone : PyV
  deriving Repr, DecidableEq

/-- Python truthiness for the scalar values above (`if patient). -/
def truthy : PyV → Bool
  | .vstr s => !s.isEmpty
  | .vint n => n != 0
  | .vnone => false

/-- Python dict lookup `d[k]` on a flat record, `none` = `KeyError`. -/
def lookupA : List (String × PyV) → String → Option PyV
  | [], _ => none
  | (k, v) :: rest, key => if k = key then some v else lookupA rest key

/-- `str.lower()`, character by character (the strings involved are
ASCII). -/
def lowerStr (s : Str) : Str := s.map Char.toLower

/-- The derived synthetic email `f"{first}.{last}@example.edu".lower()`
shared by `anonymize_user` and `anonymize_patient`. -/
def emailOf (first last : Str) : Str :=
  lowerStr (first ++ '.' :: last ++ strC "@example.edu")

/-- The fixed placeholder phone number `anonymize_patient` installs. -/
def phonePlaceholder : Str := strC "(510) 555-1234"

/-- `anonymize_user(user)`.  `firstName`/`lastName` are the values the
two `faker` calls returned.  Returns `none` when Python would raise
(missing or non-int `id`) or the id-draw fuel runs out. -/
def anonUser (rng : Nat → Int) (fuel : Nat) (firstName lastName : Str)
    (user : List (String × PyV)) (s : AnonState) :
    Option (List (String × PyV) × AnonState) :=
  match lookupA user "id" with
  | some (.vint uid) =>
    match randomId rng fuel (intToStr uid) (strC "User") s with
    | none => none
    | some (s', nid) =>
      some ([("firstName", .vstr firstName), ("lastName", .vstr lastName),
             ("email", .vstr (emailOf firstName lastName)),
             ("patient", .vnone), ("id", .vint nid)], s')
  | _ => none

/-- The fields `anonymize_patient` writes before the id fields, in
insertion order, with the phone/email entries conditional on the input
values' truthiness. -/
def patientFront (given family bdate : Str) (phone email : PyV) (org : PyV) :
    List (String × PyV) :=
  [("organizationId", org), ("nameGiven", PyV.vstr given),
      ("nameFamily", PyV.vstr family)]
    ++ (if truthy phone then [("telecomPhone", PyV.vstr phonePlaceholder)] else [])
    ++ (if truthy email then [("telecomEmail", PyV.vstr (emailOf given family))] else [])
    ++ [("birthDate", PyV.vstr bdate)]

/-- The conditional `identifier` entry of `anonymize_patient`, together
with the state after its `_random_uuid` draw (if any). -/
def patientIdent (ident : PyV) (s : AnonState) :
    List (String × PyV) × AnonState :=
  if truthy ident then ([("identifier", PyV.vstr (randomUuid s).1)], (randomUuid s).2)
  else ([], s)

/-- `anonymize_patient(patient)`.  `given`/`family`/`bdate` are the
values the `faker` calls returned (`bdate` already `%Y-%m-%d`-formatted).
Returns `none` when a required field is missing, an id field is not an
int, or the id-draw fuel runs out. -/
def anonPatient (rng : Nat → Int) (fuel : Nat) (given family bdate : Str)
    (p : List (String × PyV)) (s : AnonState) :
    Option (List (String × PyV) × AnonState) :=
  match lookupA p "organizationId", lookupA p "telecomPhone",
        lookupA p "telecomEmail", lookupA p "identifier",
        lookupA p "id", lookupA p "jheUserId" with
  | some org, some phone, some email, some ident,
      some (.vint pid), some (.vint juid) =>
    match randomId rng fuel (intToStr pid) (strC "Patient") (patientIdent ident s).2 with
    | none => none
    | some (s₂, nid) =>
      match randomId rng fuel (intToStr juid) (strC "User") s₂ with
      | none => none
      | some (s₃, njid) =>
        some (patientFront given family bdate phone email org
            ++ (patientIdent ident s).1
            ++ [("id", PyV.vint nid), ("jheUserId", PyV.vint njid)], s₃)
  | _, _, _, _, _, _ => none

/-- JSON-shaped values, for observation records and the decoded
attachment payload.  Python floats are modelled as exact rationals. -/
inductive JVal
  | jstr : Str → JVal
  | jint : Int → JVal
  | jrat : ℚ → JVal
  | jbool : Bool → JVal
  | jnull : JVal
  | jarr : List JVal → JVal
  | jobj : List (String × JVal) → JVal

mutual

/-- Structural equality of JSON values (Python `==`). -/
def beqJ : JVal → JVal → Bool
  | .jstr a, .jstr b => a == b
  | .jint a, .jint b => a == b
  | .jrat a, .jrat b => a == b
  | .jbool a, .jbool b => a == b
  | .jnull, .jnull => true
  | .jarr a, .jarr b => beqL a b
  | .jobj a, .jobj b => beqF a b
  | _, _ => false

/-- Structural equality of JSON arrays. -/
def beqL : List JVal → List JVal → Bool
  | [], [] => true
  | x :: xs, y :: ys => beqJ x y && beqL xs ys
  | _, _ => false

/-- Structural equality of JSON objects. -/
def beqF : List (String × JVal) → List (String × JVal) → Bool
  | [], [] => true
  | (k, v) :: xs, (l, w) :: ys => k == l && beqJ v w && beqF xs ys
  | _, _ => false

end

theorem beqL_iff (xs : List JVal)
    (ih : ∀ x ∈ xs, ∀ b, beqJ x b = true ↔ x = b) :
    ∀ ys, beqL xs ys = true ↔ xs = ys := by
  induction xs with
  | nil => intro ys; cases ys <;> simp [beqL]
  | cons x xs ihx =>
    intro ys
    cases ys with
    | nil => simp [beqL]
    | cons y ys =>
      have h1 := ih x (List.mem_cons_self x xs) y
      have h2 := ihx (fun z hz b => ih z (List.mem_cons_of_mem x hz) b) ys
      simp [beqL, Bool.and_eq_true, h1, h2]

theorem beqF_iff (xs : List (String × JVal))
    (ih : ∀ k v, (k, v) ∈ xs → ∀ b, beqJ v b = true ↔ v = b) :
    ∀ ys, beqF xs ys = true ↔ xs = ys := by
  induction xs with
  | nil => intro ys; cases ys <;> simp [beqF]
  | cons x xs ihx =>
    intro ys
    rcases x with ⟨k, v⟩
    cases ys with
    | nil => simp [beqF]
    | cons y ys =>
      rcases y with ⟨l, w⟩
      have h1 := ih k v (List.mem_cons_self _ xs) w
      have h2 := ihx (fun k' v' hv b => ih k' v' (List.mem_cons_of_mem _ hv) b) ys
      simp [beqF, Bool.and_eq_true, h1, h2, and_assoc]

theorem beqJ_iff_eq : ∀ a b : JVal, beqJ a b = true ↔ a = b := by
  have main : ∀ (n : Nat) (a b : JVal), sizeOf a ≤ n → (beqJ a b = true ↔ a = b) := by
    intro n
    induction n with
    | zero =>
      intro a b h
      cases a <;> simp at h
    | succ n ih =>
      intro a b h
      cases a with
      | jstr s => cases b <;> simp [beqJ]
      | jint i => cases b <;> simp [beqJ]
      | jrat q => cases b <;> simp [beqJ]
      | jbool v => cases b <;> simp [beqJ]
      | jnull => cases b <;> simp [beqJ]
      | jarr xs =>
        have hih : ∀ x ∈ xs, ∀ b, beqJ x b = true ↔ x = b := by
          intro x hx b
          apply ih x b
          have hlt := List.sizeOf_lt_of_mem hx
          simp only [JVal.jarr.sizeOf_spec] at h
          omega
        cases b with
        | jarr ys => simp [beqJ, beqL_iff xs hih ys]
        | jstr _ => simp [beqJ]
        | jint _ => simp [beqJ]
        | jrat _ => simp [beqJ]
        | jbool _ => simp [beqJ]
        | jnull => simp [beqJ]
        | jobj _ => simp [beqJ]
      | jobj fs =>
        have hih : ∀ k v, (k, v) ∈ fs → ∀ b, beqJ v b = true ↔ v = b := by
          intro k v hv b
          apply ih v b
          have hlt := List.sizeOf_lt_of_mem hv
          simp only [JVal.jobj.sizeOf_spec] at h
          simp only [Prod.mk.sizeOf_spec] at hlt
          omega
        cases b with
        | jobj ys => simp [beqJ, beqF_iff fs hih ys]
        | jstr _ => simp [beqJ]
        | jint _ => simp [beqJ]
        | jrat _ => simp [beqJ]
        | jbool _ => simp [beqJ]
        | jnull => simp [beqJ]
        | jarr _ => simp [beqJ]
  exact fun a b => main (sizeOf a) a b (le_refl _)

instance : DecidableEq JVal :=
  fun a b => decidable_of_iff (beqJ a b = true) (beqJ_iff_eq a b)

/-- Whether `needle` is at the head of `hay`. -/
def headMatch : Str → Str → Bool
  | [], _ => true
  | _ :: _, [] => false
  | c :: cs, d :: ds => c == d && headMatch cs ds

/-- Python `needle in hay` on strings: contiguous substring test. -/
def substrIn (needle : Str) : Str → Bool
  | [] => needle.isEmpty
  | c :: cs => headMatch needle (c :: cs) || substrIn needle cs

/-- Dict lookup on a JSON object's (insertion-ordered) field list. -/
def getJ : List (String × JVal) → String → Option JVal
  | [], _ => none
  | (k, v) :: rest, key => if k = key then some v else getJ rest key

/-- Dict assignment `d[k] = v`: replaces in place, appends if absent. -/
def setJ : List (String × JVal) → String → JVal → List (String × JVal)
  | [], key, v => [(key, v)]
  | (k, w) :: rest, key, v =>
    if k = key then (key, v) :: rest else (k, w) :: setJ rest key v

theorem getJ_setJ_same (l : List (String × JVal)) (k : String) (v : JVal) :
    getJ (setJ l k v) k = some v := by
  induction l with
  | nil => simp [setJ, getJ]
  | cons p rest ih =>
    rcases p with ⟨k', w⟩
    by_cases h : k' = k
    · simp [setJ, getJ, h]
    · simp [setJ, getJ, h, ih]

theorem getJ_setJ_other (l : List (String × JVal)) (k k' : String) (v : JVal)
    (hne : k ≠ k') : getJ (setJ l k v) k' = getJ l k' := by
  induction l with
  | nil => simp [setJ, getJ, hne]
  | cons p rest ih =>
    rcases p with ⟨k₀, w⟩
    by_cases h : k₀ = k
    · subst h
      simp [setJ, getJ, hne]
    · simp [setJ, getJ, h, ih]

/-- Python numbers as `_scale_value` sees them: an int or a float. -/
inductive PyNum
  | pint : Int → PyNum
  | pfloat : ℚ → PyNum
  deriving Repr, DecidableEq

def toQ : PyNum → ℚ
  | .pint n => (n : ℚ)
  | .pfloat q => q

/-- Python banker's rounding of a rational to an integer
(`round` ties-to-even), exact on the values this program rounds. -/
def pyRoundHalfEven (q : ℚ) : Int :=
  if q - ⌊q⌋ < 1/2 then ⌊q⌋
  else if 1/2 < q - ⌊q⌋ then ⌊q⌋ + 1
  else if ⌊q⌋ % 2 = 0 then ⌊q⌋ else ⌊q⌋ + 1

/-- `round(value, -1)`: round to the nearest multiple of ten. -/
def round10 (q : ℚ) : ℚ := (pyRoundHalfEven (q / 10) : ℚ) * 10

/-- Python `int(x)` on a float: truncation toward zero. -/
def intTrunc (q : ℚ) : Int := if 0 ≤ q then ⌊q⌋ else -⌊-q⌋

/-- The pre-cast value `_scale_value` computes:
`round_value + round_value * (random.random() - 0.5) * noise_scale`,
with `r` the value `random.random()` returned. -/
def scaledNoisy (q noiseScale r : ℚ) : ℚ :=
  round10 q + round10 q * (r - 1/2) * noiseScale

/-- `_scale_value(value, noise_scale)`: the `type(value)(new_value)`
cast sends int inputs through `intTrunc` and keeps float inputs as
floats. -/
def scaleValue (v : PyNum) (noiseScale r : ℚ) : PyNum :=
  match v with
  | .pint n => .pint (intTrunc (scaledNoisy (n : ℚ) noiseScale r))
  | .pfloat q => .pfloat (scaledNoisy q noiseScale r)

/-- The f-string rendering of an observation `id` as `_random_id`'s
cache key uses it; the API delivers string or int ids, other shapes are
outside the model. -/
def jvalIdStr : JVal → Option Str
  | .jstr s => some s
  | .jint n => some (intToStr n)
  | _ => none

/-- The loop `for identifier in observation["identifier"]:
identifier["value"] = _random_uuid()`.  A non-dict element makes Python
raise, modelled as `none`. -/
def anonIdentifiers : List JVal → AnonState → Option (List JVal × AnonState)
  | [], s => some ([], s)
  | .jobj fs :: rest, s =>
    let u := randomUuid s
    (anonIdentifiers rest u.2).map
      (fun r => (JVal.jobj (setJ fs "value" (.jstr u.1)) :: r.1, r.2))
  | _ :: _, _ => none

/-- One body entry of the attachment: `if "value" in content:` replace
`content["value"]` through `_scale_value` (with `r` the `random.random()`
draw), preserving int-ness via the explicit `int()` re-cast.  String and
list contents follow Python's `in`; contents on which `in` or the
rounding would raise are `none`.  (Python's bool-is-int corner is outside
the model.) -/
def noiseContent (noiseScale r : ℚ) : JVal → Option JVal
  | .jobj fs =>
    match getJ fs "value" with
    | none => some (.jobj fs)
    | some (.jint n) =>
      some (.jobj (setJ fs "value" (.jint (intTrunc (scaledNoisy (n : ℚ) noiseScale r)))))
    | some (.jrat q) =>
      some (.jobj (setJ fs "value" (.jrat (scaledNoisy q noiseScale r))))
    | some _ => none
  | .jstr t => if substrIn (strC "value") t then none else some (.jstr t)
  | .jarr xs => if (JVal.jstr (strC "value")) ∈ xs then none else some (.jarr xs)
  | _ => none

/-- Whether a body entry consumes a `random.random()` draw. -/
def consumesDraw : JVal → Bool
  | .jobj fs => (getJ fs "value").isSome
  | _ => false

/-- The `for field, content in value_data["body"].items()` loop,
threading the index into the `random.random()` trace `uni`. -/
def noiseBody (uni : Nat → ℚ) (noiseScale : ℚ) :
    List (String × JVal) → Nat → Option (List (String × JVal) × Nat)
  | [], k => some ([], k)
  | (f, content) :: rest, k =>
    match noiseContent noiseScale (uni k) content with
    | none => none
    | some content' =>
      (noiseBody uni noiseScale rest (if consumesDraw content then k + 1 else k)).map
        (fun r => ((f, content') :: r.1, r.2))

/-- The `for field in ("uuid", "source_data_point_id")` loop over the
attachment header. -/
def anonHeader (hd : List (String × JVal)) (s : AnonState) :
    List (String × JVal) × AnonState :=
  let step1 := if (getJ hd "uuid").isSome then
      let u := randomUuid s
      (setJ hd "uuid" (.jstr u.1), u.2)
    else (hd, s)
  if (getJ step1.1 "source_data_point_id").isSome then
    let u := randomUuid step1.2
    (setJ step1.1 "source_data_point_id" (.jstr u.1), u.2)
  else step1

/-- The id, identifier-list and subject-reference rewrites of
`anonymize_observation` (everything before the attachment handling),
over the record's field list. -/
def anonObsCore (rng : Nat → Int) (fuel : Nat) (fs : List (String × JVal))
    (s : AnonState) : Option (List (String × JVal) × AnonState) :=
  match getJ fs "id" with
  | none => none
  | some idv =>
    match jvalIdStr idv with
    | none => none
    | some idStr =>
      match randomId rng fuel idStr (strC "Observation") s with
      | none => none
      | some (s₁, nid) =>
        match getJ (setJ fs "id" (.jint nid)) "identifier" with
        | some (.jarr items) =>
          match anonIdentifiers items s₁ with
          | none => none
          | some (items', s₂) =>
            match getJ (setJ (setJ fs "id" (.jint nid)) "identifier" (.jarr items'))
                "subject" with
            | some (.jobj sub) =>
              match getJ sub "reference" with
              | some (.jstr ref) =>
                match pyInt ((partitionFirst '/' ref).2.getD []) with
                | none => none
                | some pid =>
                  match randomId rng fuel (intToStr pid) (partitionFirst '/' ref).1 s₂ with
                  | none => none
                  | some (s₃, sid) =>
                    some (setJ (setJ (setJ fs "id" (.jint nid)) "identifier"
                        (.jarr items')) "subject"
                      (.jobj (setJ sub "reference"
                        (.jstr ((partitionFirst '/' ref).1 ++ '/' :: intToStr sid)))), s₃)
              | _ => none
            | _ => none
        | _ => none

/-- The `valueAttachment` handling of `anonymize_observation`:
`dec` models `json.loads(base64.decodebytes(...))` (`none` = raise) and
`enc` models `base64.encodebytes(json.dumps(...))`. -/
def anonObsAttachment (dec : Str → Option JVal) (enc : JVal → Str)
    (uni : Nat → ℚ) (noiseScale : ℚ) (fs : List (String × JVal))
    (s : AnonState) : Option (List (String × JVal) × AnonState) :=
  match getJ fs "valueAttachment" with
  | some (.jobj va) =>
    match getJ va "data" with
    | some (.jstr data) =>
      match dec data with
      | some (.jobj vd) =>
        match getJ vd "body" with
        | some (.jobj body) =>
          match noiseBody uni noiseScale body 0 with
          | none => none
          | some (body', _) =>
            match getJ (setJ vd "body" (.jobj body')) "header" with
            | some (.jobj hd) =>
              some (setJ fs "valueAttachment" (.jobj (setJ va "data"
                  (.jstr (enc (.jobj (setJ (setJ vd "body" (.jobj body'))
                    "header" (.jobj (anonHeader hd s).1))))))),
                (anonHeader hd s).2)
            | _ => none
        | _ => none
      | _ => none
    | _ => none
  | _ => none

/-- `anonymize_observation(observation, noise_scale)`, on the deep copy
(the heap-level copy-then-mutate behaviour is modelled separately). -/
def anonObservation (rng : Nat → Int) (fuel : Nat) (dec : Str → Option JVal)
    (enc : JVal → Str) (uni : Nat → ℚ) (noiseScale : ℚ) (obs : JVal)
    (s : AnonState) : Option (JVal × AnonState) :=
  match obs with
  | .jobj fs =>
    match anonObsCore rng fuel fs s with
    | none => none
    | some (fs₃, s₃) =>
      match anonObsAttachment dec enc uni noiseScale fs₃ s₃ with
      | none => none
      | some (fs₄, s₄) => some (.jobj fs₄, s₄)
  | _ => none

theorem lookupA_append_none (l₁ l₂ : List (String × PyV)) (k : String)
    (h : lookupA l₁ k = none) : lookupA (l₁ ++ l₂) k = lookupA l₂ k := by
  induction l₁ with
  | nil => simp
  | cons p rest ih =>
    rcases p with ⟨k', v⟩
    by_cases hk : k' = k
    · simp [lookupA, hk] at h
    · simp only [lookupA, if_neg hk] at h
      simp [lookupA, hk, ih h]

theorem patientFront_id_none (given family bdate : Str) (phone email org : PyV) :
    lookupA (patientFront given family bdate phone email org) "id" = none := by
  unfold patientFront
  split_ifs <;> simp [lookupA]

theorem patientIdent_id_none (ident : PyV) (s : AnonState) :
    lookupA (patientIdent ident s).1 "id" = none := by
  unfold patientIdent
  split_ifs <;> simp [lookupA]

theorem patientIdent_caches (ident : PyV) (s : AnonState) :
    (patientIdent ident s).2.jhe = s.jhe ∧ (patientIdent ident s).2.rev = s.rev := by
  unfold patientIdent
  split_ifs <;> simp [randomUuid]

/-- The identifier loop only draws uuids: it leaves both id caches
untouched. -/
theorem anonIdentifiers_caches (items : List JVal) (s : AnonState)
    (r : List JVal × AnonState) (h : anonIdentifiers items s = some r) :
    r.2.jhe = s.jhe ∧ r.2.rev = s.rev := by
  induction items generalizing s r with
  | nil =>
    simp [anonIdentifiers] at h
    rw [← h]
    exact ⟨rfl, rfl⟩
  | cons x rest ih =>
    cases x with
    | jobj fs =>
      simp only [anonIdentifiers, Option.map_eq_some'] at h
      obtain ⟨r', hr', hr⟩ := h
      have := ih (randomUuid s).2 r' hr'
      rw [← hr]
      simpa [randomUuid] using this
    | jstr a => simp [anonIdentifiers] at h
    | jint a => simp [anonIdentifiers] at h
    | jrat a => simp [anonIdentifiers] at h
    | jbool a => simp [anonIdentifiers] at h
    | jnull => simp [anonIdentifiers] at h
    | jarr a => simp [anonIdentifiers] at h

/-- Stability of `_random_id`: once a pair has been mapped, any later
call for the same pair (any start, any further draws) returns the same
synthetic id and leaves the state unchanged. -/
theorem randomId_stable (rng rng' : Nat → Int) (fuel fuel' : Nat)
    (idStr kind : Str) (s s₁ s₂ : AnonState) (v : Int)
    (h : randomId rng fuel idStr kind s = some (s₁, v)) (hr : Reach s₁ s₂) :
    randomId rng' fuel' idStr kind s₂ = some (s₂, v) := by
  have hb := Reach_mono_jhe s₁ s₂ hr _ v
    (randomId_jhe_binding rng fuel idStr kind s s₁ v h)
  unfold randomId
  rw [hb]

/-- A successful `anonymize_patient` leaves the forward cache holding a
binding for `"Patient/{id}"` whose value is exactly the `id` field of
the returned record. -/
theorem anonPatient_id_binding (rng : Nat → Int) (fuel : Nat)
    (given family bdate : Str) (p : List (String × PyV)) (s : AnonState)
    (pout : List (String × PyV)) (s₁ : AnonState) (pid : Int)
    (h : anonPatient rng fuel given family bdate p s = some (pout, s₁))
    (hid : lookupA p "id" = some (.vint pid)) :
    ∃ nid, lookupKey s₁.jhe (strC "Patient" ++ '/' :: intToStr pid) = some nid ∧
      lookupA pout "id" = some (.vint nid) := by
  unfold anonPatient at h
  split at h
  · rename_i org phone email ident pid0 juid h1 h2 h3 h4 h5 h6
    rw [hid] at h5
    simp only [Option.some_inj, PyV.vint.injEq] at h5
    subst h5
    split at h
    · exact absurd h (by simp)
    · rename_i s₂ nid h7
      split at h
      · exact absurd h (by simp)
      · rename_i s₃ njid h8
        simp only [Option.some_inj, Prod.mk.injEq] at h
        obtain ⟨hpout, hs⟩ := h
        refine ⟨nid, ?_, ?_⟩
        · have hb := randomId_jhe_binding rng fuel (intToStr pid) (strC "Patient")
            (patientIdent ident s).2 s₂ nid h7
          have hb₂ := randomId_mono_jhe rng fuel (intToStr juid) (strC "User")
            s₂ s₃ njid h8 _ nid hb
          rw [← hs]
          exact hb₂
        · rw [← hpout, List.append_assoc]
          rw [lookupA_append_none _ _ _
            (patientFront_id_none given family bdate phone email org)]
          rw [lookupA_append_none _ _ _ (patientIdent_id_none ident s)]
          simp [lookupA]
  · exact absurd h (by simp)

/-- If the forward cache already maps `"Patient/{pid}"` to `nid`, the
core rewrite of `anonymize_observation` re-serializes a
`"Patient/{pid}"` subject reference as `"Patient/{nid}"`. -/
theorem anonObsCore_subject (rng : Nat → Int) (fuel : Nat)
    (fs sub : List (String × JVal)) (s : AnonState) (pid nid : Int)
    (fs₃ : List (String × JVal)) (s₃ : AnonState)
    (hsub : getJ fs "subject" = some (.jobj sub))
    (href : getJ sub "reference" = some (.jstr (strC "Patient" ++ '/' :: intToStr pid)))
    (hbind : lookupKey s.jhe (strC "Patient" ++ '/' :: intToStr pid) = some nid)
    (hrun : anonObsCore rng fuel fs s = some (fs₃, s₃)) :
    getJ fs₃ "subject" = some (.jobj (setJ sub "reference"
      (.jstr (strC "Patient" ++ '/' :: intToStr nid)))) := by
  have hpart : partitionFirst '/' (strC "Patient" ++ '/' :: intToStr pid)
      = (strC "Patient", some (intToStr pid)) :=
    partitionFirst_append '/' (strC "Patient") (intToStr pid) (by decide)
  unfold anonObsCore at hrun
  split at hrun
  · simp at hrun
  rename_i idv hidv
  split at hrun
  · simp at hrun
  rename_i idStr hidStr
  split at hrun
  · simp at hrun
  rename_i hA sA nidA hArun
  have hbindA : lookupKey sA.jhe (strC "Patient" ++ '/' :: intToStr pid) = some nid :=
    randomId_mono_jhe rng fuel idStr (strC "Observation") s sA nidA hArun _ nid hbind
  split at hrun
  case _ items hitems =>
    split at hrun
    · simp at hrun
    rename_i hB itemsB sB hBrun
    have hcach := anonIdentifiers_caches items sA (itemsB, sB) hBrun
    have hbindB : lookupKey sB.jhe (strC "Patient" ++ '/' :: intToStr pid) = some nid := by
      rw [hcach.1]
      exact hbindA
    have hsub₂ : getJ (setJ (setJ fs "id" (.jint nidA)) "identifier" (.jarr itemsB))
        "subject" = some (.jobj sub) := by
      rw [getJ_setJ_other _ _ _ _ (by decide), getJ_setJ_other _ _ _ _ (by decide)]
      exact hsub
    split at hrun
    case _ sub₀ hsub₀ =>
      rw [hsub₂] at hsub₀
      simp only [Option.some_inj, JVal.jobj.injEq] at hsub₀
      subst hsub₀
      split at hrun
      case _ ref href₀ =>
        rw [href] at href₀
        simp only [Option.some_inj, JVal.jstr.injEq] at href₀
        subst href₀
        rw [hpart] at hrun
        simp only [Option.getD_some, pyInt_intToStr pid] at hrun
        split at hrun
        · simp at hrun
        case _ pid₀ hpid₀ =>
          try simp only [Option.some_inj] at hpid₀
          try subst hpid₀
          have hlast : randomId rng fuel (intToStr pid) (strC "Patient") sB
              = some (sB, nid) := by
            unfold randomId
            rw [hbindB]
          rw [hlast] at hpid₀
          simp only [Option.some_inj, Prod.mk.injEq] at hpid₀
          obtain ⟨hC1, hC2⟩ := hpid₀
          subst hC1
          subst hC2
          simp only [Option.some_inj, Prod.mk.injEq] at hrun
          obtain ⟨h31, h32⟩ := hrun
          subst h31
          rw [getJ_setJ_same]
      · simp at hrun
    · simp at hrun
  · simp at hrun

/-- The attachment handling rewrites only the `valueAttachment` field:
every other field of the record is left as it was. -/
theorem anonObsAttachment_other (dec : Str → Option JVal) (enc : JVal → Str)
    (uni : Nat → ℚ) (noiseScale : ℚ) (fs : List (String × JVal)) (s : AnonState)
    (fs' : List (String × JVal)) (s' : AnonState) (k : String)
    (hk : "valueAttachment" ≠ k)
    (h : anonObsAttachment dec enc uni noiseScale fs s = some (fs', s')) :
    getJ fs' k = getJ fs k := by
  unfold anonObsAttachment at h
  split at h
  case _ va hva =>
    split at h
    case _ data hdata =>
      split at h
      case _ vd hvd =>
        split at h
        case _ body hbody =>
          split at h
          · simp at h
          case _ body' k₀ hnb =>
            split at h
            case _ hd hhd =>
              simp only [Option.some_inj, Prod.mk.injEq] at h
              obtain ⟨h1, h2⟩ := h
              subst h1
              exact getJ_setJ_other _ _ _ _ hk
            · simp at h
        · simp at h
      · simp at h
    · simp at h
  · simp at h

/-- C2: the identifier mapping is stable.  First part: once
`_random_id` has mapped a pair, any later call for the same pair (any
`start`, any further draw trace) returns the same synthetic id and does
not change the state.  Second part: after `anonymize_patient` maps a
patient id `pid`, `anonymize_observation` applied (at any reachable
later state) to an observation whose subject reference is
`"Patient/{pid}"` re-serializes the reference with exactly the
synthetic id the patient transform assigned. -/
theorem C2_stable_identifier_mapping :
    (∀ (rng rng' : Nat → Int) (fuel fuel' : Nat) (idStr kind : Str)
        (s s₁ s₂ : AnonState) (v : Int),
      randomId rng fuel idStr kind s = some (s₁, v) → Reach s₁ s₂ →
      randomId rng' fuel' idStr kind s₂ = some (s₂, v)) ∧
    (∀ (rng rng' : Nat → Int) (fuel fuel' : Nat) (given family bdate : Str)
        (p pout : List (String × PyV)) (s s₁ s₂ : AnonState) (pid nid : Int)
        (dec : Str → Option JVal) (enc : JVal → Str) (uni : Nat → ℚ) (ns : ℚ)
        (fs sub : List (String × JVal)) (out : JVal) (s₃ : AnonState),
      anonPatient rng fuel given family bdate p s = some (pout, s₁) →
      lookupA p "id" = some (.vint pid) →
      lookupA pout "id" = some (.vint nid) →
      Reach s₁ s₂ →
      getJ fs "subject" = some (.jobj sub) →
      getJ sub "reference" = some (.jstr (strC "Patient" ++ '/' :: intToStr pid)) →
      anonObservation rng' fuel' dec enc uni ns (.jobj fs) s₂ = some (out, s₃) →
      ∃ fsOut, out = .jobj fsOut ∧
        getJ fsOut "subject" = some (.jobj (setJ sub "reference"
          (.jstr (strC "Patient" ++ '/' :: intToStr nid))))) := by
  constructor
  · exact fun rng rng' fuel fuel' idStr kind s s₁ s₂ v h hr =>
      randomId_stable rng rng' fuel fuel' idStr kind s s₁ s₂ v h hr
  · intro rng rng' fuel fuel' given family bdate p pout s s₁ s₂ pid nid
      dec enc uni ns fs sub out s₃ hpat hpid hnid hreach hsub href hobs
    obtain ⟨nid₀, hbind₀, hout₀⟩ := anonPatient_id_binding rng fuel given family
      bdate p s pout s₁ pid hpat hpid
    rw [hnid] at hout₀
    simp only [Option.some_inj, PyV.vint.injEq] at hout₀
    subst hout₀
    have hbind₂ := Reach_mono_jhe s₁ s₂ hreach _ nid hbind₀
    simp only [anonObservation] at hobs
    split at hobs
    · simp at hobs
    case _ fsC sC hcore =>
      split at hobs
      · simp at hobs
      case _ fsD sD hatt =>
        simp only [Option.some_inj, Prod.mk.injEq] at hobs
        obtain ⟨ho1, ho2⟩ := hobs
        subst ho1
        refine ⟨fsD, rfl, ?_⟩
        rw [anonObsAttachment_other dec enc uni ns fsC sC fsD sD "subject"
          (by decide) hatt]
        exact anonObsCore_subject rng' fuel' fs sub s₂ pid nid fsC sC
          hsub href hbind₂ hcore

/-- Concrete input patient record for the C2 witness run. -/
def c2Patient : List (String × PyV) :=
  [("organizationId", .vint 20026), ("telecomPhone", .vnone),
   ("telecomEmail", .vnone), ("identifier", .vnone),
   ("id", .vint 45439), ("jheUserId", .vint 19259)]

/-- The record the C2 witness run of `anonPatient` produces. -/
def c2PatientOut : List (String × PyV) :=
  [("organizationId", .vint 20026), ("nameGiven", .vstr (strC "Ga")),
   ("nameFamily", .vstr (strC "Fa")), ("birthDate", .vstr (strC "1990-01-01")),
   ("id", .vint 41000), ("jheUserId", .vint 41001)]

/-- The cache state after the C2 witness run of `anonPatient`. -/
def c2State1 : AnonState :=
  ⟨[(strC "User/19259", 41001), (strC "Patient/45439", 41000)],
   [(41001, strC "User/19259"), (41000, strC "Patient/45439")], 2, 0⟩

/-- Concrete observation fields for the C2 witness run. -/
def c2ObsFields : List (String × JVal) :=
  [("id", .jstr (strC "54322")), ("identifier", .jarr []),
   ("subject", .jobj [("reference", .jstr (strC "Patient/45439"))]),
   ("valueAttachment", .jobj [("data", .jstr (strC "XX"))])]

/-- The observation the C2 witness run produces. -/
def c2ObsOut : JVal :=
  .jobj [("id", .jint 41002), ("identifier", .jarr []),
   ("subject", .jobj [("reference", .jstr (strC "Patient/41000"))]),
   ("valueAttachment", .jobj [("data", .jstr (strC "YY"))])]

/-- The cache state after the C2 witness run of `anonObservation`. -/
def c2State3 : AnonState :=
  ⟨[(strC "Observation/54322", 41002), (strC "User/19259", 41001),
    (strC "Patient/45439", 41000)],
   [(41002, strC "Observation/54322"), (41001, strC "User/19259"),
    (41000, strC "Patient/45439")], 3, 0⟩

/-- Witness for C2: a patient with id 45439 maps to 41000, and an
observation whose subject is `"Patient/45439"` is re-serialized as
`"Patient/41000"`. -/
theorem C2_witness :
    ∃ fsOut, c2ObsOut = JVal.jobj fsOut ∧
      getJ fsOut "subject" = some (.jobj (setJ
        [("reference", JVal.jstr (strC "Patient/45439"))] "reference"
        (.jstr (strC "Patient" ++ '/' :: intToStr 41000)))) :=
  C2_stable_identifier_mapping.2 (fun n => 41000 + n) (fun n => 41000 + n) 2 2
    (strC "Ga") (strC "Fa") (strC "1990-01-01") c2Patient c2PatientOut
    initState c2State1 c2State1 45439 41000
    (fun _ => some (.jobj [("body", .jobj []), ("header", .jobj [])]))
    (fun _ => strC "YY") (fun _ => (1 : ℚ) / 2) ((1 : ℚ) / 5)
    c2ObsFields [("reference", .jstr (strC "Patient/45439"))] c2ObsOut c2State3
    (by decide) (by decide) (by decide) (Reach.refl _)
    (by decide) (by decide) (by decide)

/-- A FHIR bundle navigation link. -/
structure Link where
  relation : String
  url : String
  deriving Repr, DecidableEq

/-- A FHIR bundle page: `r["entry"]` and `r.get("link") or []`.  A page
with a missing/None `link` key is the empty link list. -/
structure Page where
  entry : List JVal
  link : List Link

/-- `next_url` after the link loop: the url of the last link whose
relation is `"next"`. -/
def nextUrl (ls : List Link) : Option String :=
  ls.foldl (fun acc l => if l.relation = "next" then some l.url else acc) none

/-- Python truthiness of `next_url` (`None` and `""` are falsy). -/
def urlTruthy : Option String → Bool
  | none => false
  | some u => !u.isEmpty

/-- The single-key unwrap: `if isinstance(entry, dict) and
len(entry) == 1: entry = list(entry.values())[0]`. -/
def unwrapE : JVal → JVal
  | .jobj [(_, v)] => v
  | e => e

/-- `entry["id"]` of an already-unwrapped entry (`none` = Python
raises). -/
def yid : JVal → Option JVal
  | .jobj fs => getJ fs "id"
  | _ => none

/-- The id under which an entry is deduplicated. -/
def entryId (e : JVal) : Option JVal := yid (unwrapE e)

/-- `if limit and records >= limit` (`None` and `0` are falsy). -/
def limitHit (limit : Option Int) (records : Nat) : Bool :=
  match limit with
  | none => false
  | some k => decide (k ≠ 0) && decide (k ≤ (records : Int))

/-- The `for entry in r["entry"]` loop of `_fhir_list_api_request`:
returns the entries yielded from this page, the updated `records`
count and `seen_ids`, the `new_records` flag, and whether the limit
`return` fired.  `none` = an entry without an `"id"` made Python
raise. -/
def processPage (limit : Option Int) :
    List JVal → Nat → List JVal → Option (List JVal × Nat × List JVal × Bool × Bool)
  | [], rec, seen => some ([], rec, seen, false, false)
  | e :: rest, rec, seen =>
    match entryId e with
    | none => none
    | some idv =>
      if idv ∈ seen then processPage limit rest rec seen
      else
        if limitHit limit (rec + 1) then
          some ([unwrapE e], rec + 1, idv :: seen, true, true)
        else
          match processPage limit rest (rec + 1) (idv :: seen) with
          | none => none
          | some (ys, rec₂, seen₂, _, hit) =>
            some (unwrapE e :: ys, rec₂, seen₂, true, hit)

/-- The `while True` page loop.  The remaining page sequence models the
pages `fetch` would deliver for successive `next` urls; following a
`next` link with no page left is an undefined fetch, modelled `none`.
Returns the yielded entries and the number of pages processed (the
`requests` counter). -/
def walkFrom (limit : Option Int) :
    List Page → Page → Nat → List JVal → Option (List JVal × Nat)
  | rest, p, rec, seen =>
    match processPage limit p.entry rec seen with
    | none => none
    | some (ys, rec₁, seen₁, newRec, hit) =>
      if hit then some (ys, 1)
      else if urlTruthy (nextUrl p.link) && newRec then
        match rest with
        | [] => none
        | q :: qs =>
          match walkFrom limit qs q rec₁ seen₁ with
          | none => none
          | some (ys₂, n) => some (ys ++ ys₂, n + 1)
      else some (ys, 1)

/-- `_fhir_list_api_request` from the initial response page. -/
def fhirListWalk (limit : Option Int) (first : Page) (rest : List Page) :
    Option (List JVal × Nat) :=
  walkFrom limit rest first 0 []

/-- The number of not-yet-seen entry ids a page contributes. -/
def newCount : List JVal → List JVal → Nat
  | [], _ => 0
  | e :: rest, seen =>
    match entryId e with
    | none => 0
    | some i => if i ∈ seen then newCount rest seen else newCount rest (i :: seen) + 1

/-- `seen_ids` after a page's entries are processed without a limit. -/
def addIds : List JVal → List JVal → List JVal
  | [], seen => seen
  | e :: rest, seen =>
    match entryId e with
    | none => seen
    | some i => if i ∈ seen then addIds rest seen else addIds rest (i :: seen)

/-- Distinct new ids contributed by a page sequence. -/
def pagesNew : List Page → List JVal → Nat
  | [], _ => 0
  | p :: ps, seen => newCount p.entry seen + pagesNew ps (addIds p.entry seen)

/-- Every page but the last carries a (truthy) next link. -/
def Linked : Page → List Page → Prop
  | _, [] => True
  | p, q :: qs => urlTruthy (nextUrl p.link) = true ∧ Linked q qs

/-- Every entry of the page has an id. -/
def EntriesOk (p : Page) : Prop := ∀ e ∈ p.entry, (entryId e).isSome = true

/-- Every page contributes at least one id not seen before it. -/
def Progress : Page → List Page → List JVal → Prop
  | p, [], seen => 0 < newCount p.entry seen
  | p, q :: qs, seen => 0 < newCount p.entry seen ∧ Progress q qs (addIds p.entry seen)

/-- Decidable form of "every entry id of the page is already seen". -/
def allSeenB (entries seen : List JVal) : Bool :=
  entries.all fun e =>
    match entryId e with
    | some i => decide (i ∈ seen)
    | none => false

theorem processPage_all_seen (limit : Option Int) (entries : List JVal)
    (rec : Nat) (seen : List JVal) (h : allSeenB entries seen = true) :
    processPage limit entries rec seen = some ([], rec, seen, false, false) := by
  induction entries with
  | nil => rfl
  | cons e rest ih =>
    simp only [allSeenB, List.all_cons, Bool.and_eq_true] at h
    obtain ⟨he, hrest⟩ := h
    simp only [processPage]
    rcases hid : entryId e with _ | i
    · rw [hid] at he; simp at he
    · rw [hid] at he
      simp only [decide_eq_true_eq] at he
      simp [he, ih hrest]

/-- C3: a page whose every entry id has already been seen contributes
nothing: the walker processes only that page (no further fetch, no
yield) and terminates, whatever the limit, the page's links, and the
remaining page supply. -/
theorem C3_duplicate_page_terminates (limit : Option Int) (p : Page)
    (rest : List Page) (rec : Nat) (seen : List JVal)
    (h : allSeenB p.entry seen = true) :
    walkFrom limit rest p rec seen = some ([], 1) := by
  rw [walkFrom, processPage_all_seen limit p.entry rec seen h]
  simp

/-- A page repeating only the id `"1"`, with a live next link. -/
def c3DupPage : Page :=
  ⟨[.jobj [("resource", .jobj [("id", .jstr (strC "1"))])]], [⟨"next", "u2"⟩]⟩

/-- A further available page with fresh id `"3"`. -/
def c3MorePage : Page :=
  ⟨[.jobj [("resource", .jobj [("id", .jstr (strC "3"))])]], []⟩

/-- Witness for C3: a page that repeats the already-seen id `"1"`, with
a live next link and a further page available, yields nothing more and
stops after that page. -/
theorem C3_witness :
    walkFrom none [c3MorePage] c3DupPage 1 [.jstr (strC "1")] = some ([], 1) :=
  C3_duplicate_page_terminates none c3DupPage [c3MorePage] 1
    [.jstr (strC "1")] (by decide)

theorem processPage_limit_zero (entries : List JVal) :
    ∀ rec seen, processPage (some 0) entries rec seen
      = processPage none entries rec seen := by
  induction entries with
  | nil => intro rec seen; rfl
  | cons e rest ih =>
    intro rec seen
    simp only [processPage]
    rcases hid : entryId e with _ | i
    · rfl
    · by_cases hi : i ∈ seen
      · simp [hi, ih]
      · have h0 : limitHit (some 0) (rec + 1) = false := rfl
        simp [hi, h0, ih, limitHit]

theorem walkFrom_limit_zero (rest : List Page) :
    ∀ p rec seen, walkFrom (some 0) rest p rec seen
      = walkFrom none rest p rec seen := by
  induction rest with
  | nil =>
    intro p rec seen
    rw [walkFrom, walkFrom, processPage_limit_zero]
  | cons q qs ih =>
    intro p rec seen
    rw [walkFrom, walkFrom, processPage_limit_zero]
    rcases hpp : processPage none p.entry rec seen with _ | ⟨ys, rec₁, seen₁, nr, hit⟩
    · rfl
    · simp only [ih]

/-- C10: with `limit=0` (like `limit=None`) the limit check can never
fire — `0` is falsy — so the walker behaves exactly as with no limit at
all, yielding every entry it would otherwise yield instead of stopping
at zero. -/
theorem C10_limit_zero_is_no_limit :
    (∀ records, limitHit (some 0) records = false) ∧
    (∀ first rest, fhirListWalk (some 0) first rest = fhirListWalk none first rest) := by
  constructor
  · intro records; rfl
  · intro first rest
    unfold fhirListWalk
    exact walkFrom_limit_zero rest first 0 []

/-- Unfolding of `walkFrom` when a further page is available. -/
theorem walkFrom_cons (limit : Option Int) (q : Page) (qs : List Page)
    (p : Page) (rec : Nat) (seen : List JVal) :
    walkFrom limit (q :: qs) p rec seen =
      match processPage limit p.entry rec seen with
      | none => none
      | some (ys, rec₁, seen₁, newRec, hit) =>
        if hit then some (ys, 1)
        else if urlTruthy (nextUrl p.link) && newRec then
          match walkFrom limit qs q rec₁ seen₁ with
          | none => none
          | some (ys₂, n) => some (ys ++ ys₂, n + 1)
        else some (ys, 1) := by rw [walkFrom]

/-- Per-page dedup invariant: the ids of the entries a page yields are
fresh (not in `seen_ids` on entry), pairwise distinct, every yielded
entry has an id, and `seen_ids` grows by exactly those ids. -/
theorem processPage_inv (limit : Option Int) (entries : List JVal) :
    ∀ rec seen ys rec₂ seen₂ nr hit,
      processPage limit entries rec seen = some (ys, rec₂, seen₂, nr, hit) →
      seen₂ = (ys.filterMap yid).reverse ++ seen ∧
      (ys.filterMap yid).Nodup ∧
      (∀ i ∈ ys.filterMap yid, i ∉ seen) ∧
      ys.length = (ys.filterMap yid).length := by
  induction entries with
  | nil =>
    intro rec seen ys rec₂ seen₂ nr hit h
    simp only [processPage, Option.some_inj, Prod.mk.injEq] at h
    obtain ⟨h1, h2, h3, h4, h5⟩ := h
    subst h1
    subst h3
    simp
  | cons e rest ih =>
    intro rec seen ys rec₂ seen₂ nr hit h
    simp only [processPage] at h
    split at h
    · simp at h
    rename_i i hid
    split at h
    case _ hi =>
      exact ih rec seen ys rec₂ seen₂ nr hit h
    case _ hi =>
      split at h
      case _ hl =>
        simp only [Option.some_inj, Prod.mk.injEq] at h
        obtain ⟨h1, h2, h3, h4, h5⟩ := h
        subst h1
        subst h3
        have hy : yid (unwrapE e) = some i := hid
        refine ⟨by simp [hy], by simp [hy], ?_, by simp [hy]⟩
        intro j hj
        simp [hy] at hj
        rw [hj]
        exact hi
      case _ hl =>
        split at h
        · simp at h
        rename_i ys₁ rec₁ seen₁ nr₁ hit₁ hpp
        simp only [Option.some_inj, Prod.mk.injEq] at h
        obtain ⟨h1, h2, h3, h4, h5⟩ := h
        subst h1
        subst h3
        obtain ⟨g1, g2, g3, g4⟩ := ih (rec + 1) (i :: seen) ys₁ rec₁ seen₁ nr₁ hit₁ hpp
        have hy : yid (unwrapE e) = some i := hid
        have hnotin : i ∉ ys₁.filterMap yid := by
          intro hmem
          exact (g3 i hmem) (List.mem_cons_self i seen)
        refine ⟨?_, ?_, ?_, ?_⟩
        · simp only [List.filterMap_cons, hy, g1]
          simp
        · simp only [List.filterMap_cons, hy]
          exact List.nodup_cons.mpr ⟨hnotin, g2⟩
        · intro j hj
          simp only [List.filterMap_cons, hy, List.mem_cons] at hj
          rcases hj with hj | hj
          · rw [hj]; exact hi
          · intro hjs
            exact (g3 j hj) (List.mem_cons_of_mem i hjs)
        · simp only [List.filterMap_cons, hy, List.length_cons, g4]

/-- Walk-level dedup invariant: nothing yielded carries an id that was
already seen, and the yielded ids are pairwise distinct. -/
theorem walkFrom_nodup (limit : Option Int) (rest : List Page) :
    ∀ p rec seen ys n, walkFrom limit rest p rec seen = some (ys, n) →
      (ys.filterMap yid).Nodup ∧ ∀ i ∈ ys.filterMap yid, i ∉ seen := by
  induction rest with
  | nil =>
    intro p rec seen ys n h
    rw [walkFrom] at h
    split at h
    · simp at h
    rename_i ys₁ rec₁ seen₁ nr₁ hit₁ hpp
    obtain ⟨g1, g2, g3, g4⟩ := processPage_inv limit p.entry rec seen ys₁ rec₁
      seen₁ nr₁ hit₁ hpp
    split at h
    case _ hh =>
      simp only [Option.some_inj, Prod.mk.injEq] at h
      obtain ⟨h1, h2⟩ := h
      subst h1
      exact ⟨g2, g3⟩
    case _ hh =>
      split at h
      case _ hn => simp at h
      case _ hn =>
        simp only [Option.some_inj, Prod.mk.injEq] at h
        obtain ⟨h1, h2⟩ := h
        subst h1
        exact ⟨g2, g3⟩
  | cons q qs ih =>
    intro p rec seen ys n h
    rw [walkFrom_cons] at h
    split at h
    · simp at h
    rename_i ys₁ rec₁ seen₁ nr₁ hit₁ hpp
    obtain ⟨g1, g2, g3, g4⟩ := processPage_inv limit p.entry rec seen ys₁ rec₁
      seen₁ nr₁ hit₁ hpp
    split at h
    case _ hh =>
      simp only [Option.some_inj, Prod.mk.injEq] at h
      obtain ⟨h1, h2⟩ := h
      subst h1
      exact ⟨g2, g3⟩
    case _ hh =>
      split at h
      case _ hn =>
        split at h
        · exact Option.noConfusion h
        rename_i ys₂ n₂ hw
        simp only [Option.some_inj, Prod.mk.injEq] at h
        obtain ⟨h1, h2⟩ := h
        subst h1
        obtain ⟨k1, k2⟩ := ih q rec₁ seen₁ ys₂ n₂ hw
        rw [g1] at k2
        constructor
        · rw [List.filterMap_append]
          refine List.Nodup.append g2 k1 ?_
          intro a ha hb
          exact k2 a hb (List.mem_append.mpr (Or.inl (List.mem_reverse.mpr ha)))
        · intro i hi
          rw [List.filterMap_append, List.mem_append] at hi
          rcases hi with hi | hi
          · exact g3 i hi
          · intro hjs
            exact k2 i hi (List.mem_append.mpr (Or.inr hjs))
      case _ hn =>
        simp only [Option.some_inj, Prod.mk.injEq] at h
        obtain ⟨h1, h2⟩ := h
        subst h1
        exact ⟨g2, g3⟩

/-- First scenario page: wrapped entries with ids `"1"`, `"2"` and a
next link. -/
def c5Page1 : Page :=
  ⟨[.jobj [("resource", .jobj [("id", .jstr (strC "1"))])],
    .jobj [("resource", .jobj [("id", .jstr (strC "2"))])]], [⟨"next", "u2"⟩]⟩

/-- Second scenario page: repeats id `"2"`, adds `"3"`, no further
link. -/
def c5Page2 : Page :=
  ⟨[.jobj [("resource", .jobj [("id", .jstr (strC "2"))])],
    .jobj [("resource", .jobj [("id", .jstr (strC "3"))])]], []⟩

/-- C5: within one walk no id is yielded twice — the yielded entries'
ids are pairwise distinct for every input — and on the two-page
scenario `["1","2"]` then `["2","3"]` the walker yields exactly the
resources with ids `"1"`, `"2"`, `"3"` in order, in two page
requests. -/
theorem C5_no_duplicate_yields :
    (∀ (limit : Option Int) (first : Page) (rest : List Page)
        (ys : List JVal) (n : Nat),
      fhirListWalk limit first rest = some (ys, n) →
      (ys.filterMap yid).Nodup) ∧
    fhirListWalk none c5Page1 [c5Page2] =
      some ([.jobj [("id", .jstr (strC "1"))], .jobj [("id", .jstr (strC "2"))],
             .jobj [("id", .jstr (strC "3"))]], 2) := by
  constructor
  · intro limit first rest ys n h
    exact (walkFrom_nodup limit rest first 0 [] ys n h).1
  · decide

/-- Witness for C5 at the scenario run: the three yielded ids are
pairwise distinct. -/
theorem C5_witness :
    (([JVal.jobj [("id", .jstr (strC "1"))], JVal.jobj [("id", .jstr (strC "2"))],
       JVal.jobj [("id", .jstr (strC "3"))]] : List JVal).filterMap yid).Nodup :=
  C5_no_duplicate_yields.1 none c5Page1 [c5Page2] _ 2 C5_no_duplicate_yields.2

theorem limitHit_coe (κ r : Nat) (hκ : 1 ≤ κ) :
    limitHit (some (κ : Int)) r = decide (κ ≤ r) := by
  simp only [limitHit]
  have h1 : (decide ((κ : Int) ≠ 0)) = true := by
    simp
    omega
  rw [h1, Bool.true_and]
  by_cases hr : κ ≤ r
  · have h2 : (κ : Int) ≤ (r : Nat) := by omega
    simp [h2, hr]
  · have h2 : ¬((κ : Int) ≤ (r : Nat)) := by omega
    simp [h2, hr]

/-- When the page's fresh entries do not reach the limit, the page loop
consumes all of them without firing the limit `return`, with counters
and `seen_ids` advancing as `newCount`/`addIds` describe. -/
theorem processPage_under (κ : Nat) (entries : List JVal) :
    ∀ rec seen, (∀ e ∈ entries, (entryId e).isSome = true) → 1 ≤ κ →
      rec + newCount entries seen < κ →
      ∃ ys, processPage (some (κ : Int)) entries rec seen =
        some (ys, rec + newCount entries seen, addIds entries seen,
          decide (0 < newCount entries seen), false) ∧
        ys.length = newCount entries seen := by
  induction entries with
  | nil =>
    intro rec seen hwf hκ hlt
    exact ⟨[], rfl, rfl⟩
  | cons e rest ih =>
    intro rec seen hwf hκ hlt
    have he := hwf e (List.mem_cons_self e rest)
    rcases hid : entryId e with _ | i
    · rw [hid] at he; simp at he
    have hwf' : ∀ x ∈ rest, (entryId x).isSome = true :=
      fun x hx => hwf x (List.mem_cons_of_mem e hx)
    by_cases hi : i ∈ seen
    · have hnc : newCount (e :: rest) seen = newCount rest seen := by
        simp [newCount, hid, hi]
      have hai : addIds (e :: rest) seen = addIds rest seen := by
        simp [addIds, hid, hi]
      rw [hnc] at hlt
      obtain ⟨ys, hpp, hlen⟩ := ih rec seen hwf' hκ hlt
      refine ⟨ys, ?_, by rw [hnc]; exact hlen⟩
      rw [hnc, hai]
      simp only [processPage, hid, if_pos hi]
      exact hpp
    · have hnc : newCount (e :: rest) seen = newCount rest (i :: seen) + 1 := by
        simp [newCount, hid, hi]
      have hai : addIds (e :: rest) seen = addIds rest (i :: seen) := by
        simp [addIds, hid, hi]
      rw [hnc] at hlt
      have hlt' : (rec + 1) + newCount rest (i :: seen) < κ := by omega
      obtain ⟨ys, hpp, hlen⟩ := ih (rec + 1) (i :: seen) hwf' hκ hlt'
      have hnohit : limitHit (some (κ : Int)) (rec + 1) = false := by
        rw [limitHit_coe κ (rec + 1) hκ]
        simp
        omega
      refine ⟨unwrapE e :: ys, ?_, by simp [hnc, hlen]⟩
      simp [processPage, hid, hi, hnohit, hpp, hnc, hai]
      omega

/-- When the page's fresh entries reach the limit, the page loop fires
the limit `return` exactly at the κ-th record, mid-page. -/
theorem processPage_hit (κ : Nat) (entries : List JVal) :
    ∀ rec seen, (∀ e ∈ entries, (entryId e).isSome = true) → 1 ≤ κ →
      rec < κ → κ ≤ rec + newCount entries seen →
      ∃ ys seen₂, processPage (some (κ : Int)) entries rec seen =
        some (ys, κ, seen₂, true, true) ∧ ys.length = κ - rec := by
  induction entries with
  | nil =>
    intro rec seen hwf hκ hrec hge
    simp [newCount] at hge
    omega
  | cons e rest ih =>
    intro rec seen hwf hκ hrec hge
    have he := hwf e (List.mem_cons_self e rest)
    rcases hid : entryId e with _ | i
    · rw [hid] at he; simp at he
    have hwf' : ∀ x ∈ rest, (entryId x).isSome = true :=
      fun x hx => hwf x (List.mem_cons_of_mem e hx)
    by_cases hi : i ∈ seen
    · have hnc : newCount (e :: rest) seen = newCount rest seen := by
        simp [newCount, hid, hi]
      rw [hnc] at hge
      obtain ⟨ys, seen₂, hpp, hlen⟩ := ih rec seen hwf' hκ hrec hge
      refine ⟨ys, seen₂, ?_, hlen⟩
      simp only [processPage, hid, if_pos hi]
      exact hpp
    · have hnc : newCount (e :: rest) seen = newCount rest (i :: seen) + 1 := by
        simp [newCount, hid, hi]
      rw [hnc] at hge
      by_cases hat : κ ≤ rec + 1
      · have hk : κ = rec + 1 := by omega
        have hyes : limitHit (some (κ : Int)) (rec + 1) = true := by
          rw [limitHit_coe κ (rec + 1) hκ]
          simp
          omega
        refine ⟨[unwrapE e], i :: seen, ?_, by simp [List.length_cons]; omega⟩
        simp [processPage, hid, hi, hyes]
        omega
      · have hno : limitHit (some (κ : Int)) (rec + 1) = false := by
          rw [limitHit_coe κ (rec + 1) hκ]
          simp
          omega
        have hge' : κ ≤ (rec + 1) + newCount rest (i :: seen) := by omega
        obtain ⟨ys, seen₂, hpp, hlen⟩ := ih (rec + 1) (i :: seen) hwf' hκ
          (by omega) hge'
        refine ⟨unwrapE e :: ys, seen₂, ?_, by simp [hlen]; omega⟩
        simp [processPage, hid, hi, hno, hpp]

/-- Walk-level limit enforcement, relativized to a mid-walk state: if
the pages are chained by next links, well-formed, and each contributes
a fresh id, and they hold more fresh ids than the limit leaves room
for, the walk succeeds, yields exactly the remaining room, and every
page processed before the last one was needed (the preceding pages'
fresh ids do not fill the room). -/
theorem walkFrom_limit_exact (κ : Nat) (rest : List Page) :
    ∀ (p : Page) (rec : Nat) (seen : List JVal),
      1 ≤ κ → rec < κ →
      EntriesOk p → (∀ q ∈ rest, EntriesOk q) →
      Linked p rest → Progress p rest seen →
      κ < rec + pagesNew (p :: rest) seen →
      ∃ ys n, walkFrom (some (κ : Int)) rest p rec seen = some (ys, n) ∧
        ys.length = κ - rec ∧ 1 ≤ n ∧ n ≤ rest.length + 1 ∧
        rec + pagesNew (List.take (n - 1) (p :: rest)) seen < κ := by
  induction rest with
  | nil =>
    intro p rec seen hκ hrec hok _ _ hprog htot
    have hge : κ ≤ rec + newCount p.entry seen := by
      simp only [pagesNew] at htot
      omega
    obtain ⟨ys, seen₂, hpp, hlen⟩ := processPage_hit κ p.entry rec seen hok hκ hrec hge
    refine ⟨ys, 1, ?_, hlen, le_refl 1, by simp, by simpa using hrec⟩
    rw [walkFrom, hpp]
    rfl
  | cons q qs ih =>
    intro p rec seen hκ hrec hok hoks hlink hprog htot
    by_cases hge : κ ≤ rec + newCount p.entry seen
    · obtain ⟨ys, seen₂, hpp, hlen⟩ := processPage_hit κ p.entry rec seen hok hκ hrec hge
      refine ⟨ys, 1, ?_, hlen, le_refl 1, by simp, by simpa using hrec⟩
      rw [walkFrom_cons, hpp]
      rfl
    · push_neg at hge
      obtain ⟨ys₁, hpp, hlen₁⟩ := processPage_under κ p.entry rec seen hok hκ hge
      have hfresh : 0 < newCount p.entry seen := hprog.1
      have hflag : decide (0 < newCount p.entry seen) = true := by
        simp [hfresh]
      have hurl : urlTruthy (nextUrl p.link) = true := hlink.1
      obtain ⟨ys₂, n₂, hw, hlen₂, hn1, hn2, hlast⟩ :=
        ih q (rec + newCount p.entry seen) (addIds p.entry seen) hκ (by omega)
          (hoks q (List.mem_cons_self q qs))
          (fun x hx => hoks x (List.mem_cons_of_mem q hx))
          hlink.2 hprog.2
          (by simp only [pagesNew] at htot ⊢; omega)
      refine ⟨ys₁ ++ ys₂, n₂ + 1, ?_, ?_, by omega, by simp; omega, ?_⟩
      · rw [walkFrom_cons, hpp, hflag]
        simp only [hurl, Bool.true_and, Bool.false_eq_true, if_false, if_true, hw]
      · rw [List.length_append, hlen₁, hlen₂]
        omega
      · have htake : List.take (n₂ + 1 - 1) (p :: q :: qs)
            = p :: List.take (n₂ - 1) (q :: qs) := by
          have h1 : n₂ + 1 - 1 = (n₂ - 1) + 1 := by omega
          rw [h1]
          rfl
        rw [htake]
        simp only [pagesNew]
        omega

/-- First counterexample page: id `"1"`, next link. -/
def c4Page1 : Page :=
  ⟨[.jobj [("resource", .jobj [("id", .jstr (strC "1"))])]], [⟨"next", "u2"⟩]⟩

/-- Second counterexample page: repeats id `"1"`, next link. -/
def c4Page2 : Page :=
  ⟨[.jobj [("resource", .jobj [("id", .jstr (strC "1"))])]], [⟨"next", "u3"⟩]⟩

/-- Third counterexample page: fresh ids `"2"`, `"3"`, no link. -/
def c4Page3 : Page :=
  ⟨[.jobj [("resource", .jobj [("id", .jstr (strC "2"))])],
    .jobj [("resource", .jobj [("id", .jstr (strC "3"))])]], []⟩

/-- Counterexample to C4 as stated: with `limit=2` and a linked page
sequence holding 3 > 2 distinct ids, the walker yields only one entry —
the all-duplicate second page makes it terminate before the limit is
reached — so "yields exactly k entries" fails without a
progress-per-page proviso. -/
theorem C4_counterexample :
    fhirListWalk (some 2) c4Page1 [c4Page2, c4Page3]
      = some ([.jobj [("id", .jstr (strC "1"))]], 2) ∧
    pagesNew [c4Page1, c4Page2, c4Page3] [] = 3 ∧
    urlTruthy (nextUrl c4Page1.link) = true ∧
    urlTruthy (nextUrl c4Page2.link) = true ∧
    ([JVal.jobj [("id", .jstr (strC "1"))]] : List JVal).length ≠ 2 := by
  refine ⟨by decide, by decide, by decide, by decide, by decide⟩

/-- C4 (amended): for `limit = k ≥ 1`, over a next-linked, well-formed
page sequence in which every page contributes at least one unseen id
and which holds more than `k` distinct ids in total, the walker yields
exactly `k` entries and fetches no page beyond those needed: the pages
before the last processed one hold fewer than `k` distinct ids. -/
theorem C4_limit_enforcement (κ : Nat) (first : Page) (rest : List Page)
    (hκ : 1 ≤ κ)
    (hok : EntriesOk first) (hoks : ∀ q ∈ rest, EntriesOk q)
    (hlink : Linked first rest) (hprog : Progress first rest [])
    (htot : κ < pagesNew (first :: rest) []) :
    ∃ ys n, fhirListWalk (some (κ : Int)) first rest = some (ys, n) ∧
      ys.length = κ ∧ 1 ≤ n ∧ n ≤ rest.length + 1 ∧
      pagesNew (List.take (n - 1) (first :: rest)) [] < κ := by
  obtain ⟨ys, n, hw, hlen, h1, h2, h3⟩ :=
    walkFrom_limit_exact κ rest first 0 [] hκ (by omega) hok hoks hlink hprog
      (by simpa using htot)
  exact ⟨ys, n, hw, by simpa using hlen, h1, h2, by simpa using h3⟩

/-- Witness page 1 for C4: id `"1"`, next link. -/
def c4wPage1 : Page :=
  ⟨[.jobj [("resource", .jobj [("id", .jstr (strC "1"))])]], [⟨"next", "u2"⟩]⟩

/-- Witness page 2 for C4: fresh ids `"2"`, `"3"`, no link. -/
def c4wPage2 : Page :=
  ⟨[.jobj [("resource", .jobj [("id", .jstr (strC "2"))])],
    .jobj [("resource", .jobj [("id", .jstr (strC "3"))])]], []⟩

/-- Witness for the amended C4: `limit=2` over two linked pages with 3
distinct ids yields exactly 2 entries, stopping mid-page-2. -/
theorem C4_witness :
    ∃ ys n, fhirListWalk (some ((2 : Nat) : Int)) c4wPage1 [c4wPage2] = some (ys, n) ∧
      ys.length = 2 ∧ 1 ≤ n ∧ n ≤ [c4wPage2].length + 1 ∧
      pagesNew (List.take (n - 1) (c4wPage1 :: [c4wPage2])) [] < 2 :=
  C4_limit_enforcement 2 c4wPage1 [c4wPage2] (by decide)
    (show ∀ e ∈ c4wPage1.entry, (entryId e).isSome = true by decide)
    (fun q hq => by
      rw [List.mem_singleton] at hq
      subst hq
      show ∀ e ∈ c4wPage2.entry, (entryId e).isSome = true
      decide)
    (show urlTruthy (nextUrl c4wPage1.link) = true ∧ Linked c4wPage2 []
      from ⟨by decide, trivial⟩)
    (show (0 < newCount c4wPage1.entry []) ∧
        Progress c4wPage2 [] (addIds c4wPage1.entry [])
      from ⟨by decide, show 0 < newCount c4wPage2.entry (addIds c4wPage1.entry [])
        by decide⟩)
    (by decide)

/-- The pre-cast noisy value stays within
`round(v,-1) * (1 ± s/2)` (as an unordered pair of bounds) for a
uniform draw `r ∈ [0,1)` and non-negative noise scale. -/
theorem scaledNoisy_bounds (q s r : ℚ) (hr0 : 0 ≤ r) (hr1 : r < 1) (hs : 0 ≤ s) :
    min (round10 q * (1 - s / 2)) (round10 q * (1 + s / 2)) ≤ scaledNoisy q s r ∧
    scaledNoisy q s r ≤ max (round10 q * (1 - s / 2)) (round10 q * (1 + s / 2)) := by
  unfold scaledNoisy
  rcases le_total 0 (round10 q) with h | h
  · have h1 : (0 : ℚ) ≤ round10 q * s := mul_nonneg h hs
    have h2 : (0 : ℚ) ≤ round10 q * s * r := mul_nonneg h1 hr0
    have h3 : (0 : ℚ) ≤ round10 q * s * (1 - r) := mul_nonneg h1 (by linarith)
    have hmin : min (round10 q * (1 - s / 2)) (round10 q * (1 + s / 2))
        = round10 q * (1 - s / 2) := min_eq_left (by nlinarith)
    have hmax : max (round10 q * (1 - s / 2)) (round10 q * (1 + s / 2))
        = round10 q * (1 + s / 2) := max_eq_right (by nlinarith)
    rw [hmin, hmax]
    constructor
    · nlinarith [h2]
    · nlinarith [h3]
  · have h1 : (0 : ℚ) ≤ -round10 q * s := mul_nonneg (by linarith) hs
    have h2 : (0 : ℚ) ≤ -round10 q * s * r := mul_nonneg h1 hr0
    have h3 : (0 : ℚ) ≤ -round10 q * s * (1 - r) := mul_nonneg h1 (by linarith)
    have hmin : min (round10 q * (1 - s / 2)) (round10 q * (1 + s / 2))
        = round10 q * (1 + s / 2) := min_eq_right (by nlinarith)
    have hmax : max (round10 q * (1 - s / 2)) (round10 q * (1 + s / 2))
        = round10 q * (1 - s / 2) := max_eq_left (by nlinarith)
    rw [hmin, hmax]
    constructor
    · nlinarith [h3]
    · nlinarith [h2]

/-- `int()` truncation moves a rational by strictly less than one. -/
theorem intTrunc_close (x : ℚ) : |((intTrunc x : Int) : ℚ) - x| < 1 := by
  unfold intTrunc
  rcases le_or_lt 0 x with h | h
  · rw [if_pos h]
    have h1 : ((⌊x⌋ : Int) : ℚ) ≤ x := Int.floor_le x
    have h2 : x - 1 < ((⌊x⌋ : Int) : ℚ) := Int.sub_one_lt_floor x
    rw [abs_lt]
    constructor <;> linarith
  · rw [if_neg (not_le.mpr h)]
    have h1 : ((⌊-x⌋ : Int) : ℚ) ≤ -x := Int.floor_le (-x)
    have h2 : -x - 1 < ((⌊-x⌋ : Int) : ℚ) := Int.sub_one_lt_floor (-x)
    rw [abs_lt]
    constructor <;> push_cast <;> linarith

/-- Counterexample to C6 as stated: for the integer input `10` with
noise scale `0.3` and draw `0.0`, `_scale_value` returns `8`, while the
claimed lower bound `round(10,-1) * (1 - 0.3/2) = 8.5` exceeds it: the
final `int()` truncation can leave the claimed interval. -/
theorem C6_counterexample :
    scaleValue (.pint 10) (3 / 10) 0 = .pint 8 ∧
    min ((10 : ℚ) * (1 - (3 / 10) / 2)) ((10 : ℚ) * (1 + (3 / 10) / 2)) = 17 / 2 ∧
    round10 ((10 : Int) : ℚ) = 10 ∧
    ¬((17 : ℚ) / 2 ≤ ((8 : Int) : ℚ)) := by
  refine ⟨?_, by norm_num, ?_, by norm_num⟩
  · show PyNum.pint (intTrunc (scaledNoisy ((10 : Int) : ℚ) (3 / 10) 0)) = .pint 8
    norm_num [scaledNoisy, round10, pyRoundHalfEven, intTrunc]
  · norm_num [round10, pyRoundHalfEven]

/-- C6 (amended): for a uniform draw `r ∈ [0,1)` and noise scale
`s ≥ 0`, a float input yields a float lying within
`round(v,-1) * (1 ± s/2)` exactly; an integer input yields an integer
whose pre-cast value lies within those bounds and which itself lies
within them widened by less than one (the `int()` cast truncates
toward zero).  The output's numeric kind always matches the input's. -/
theorem C6_noise_bounds (s r : ℚ) (hr0 : 0 ≤ r) (hr1 : r < 1) (hs : 0 ≤ s) :
    (∀ q : ℚ, scaleValue (.pfloat q) s r = .pfloat (scaledNoisy q s r) ∧
      min (round10 q * (1 - s / 2)) (round10 q * (1 + s / 2)) ≤ scaledNoisy q s r ∧
      scaledNoisy q s r ≤ max (round10 q * (1 - s / 2)) (round10 q * (1 + s / 2))) ∧
    (∀ n : Int, ∃ m : Int, scaleValue (.pint n) s r = .pint m ∧
      min (round10 (n : ℚ) * (1 - s / 2)) (round10 (n : ℚ) * (1 + s / 2))
        ≤ scaledNoisy (n : ℚ) s r ∧
      scaledNoisy (n : ℚ) s r
        ≤ max (round10 (n : ℚ) * (1 - s / 2)) (round10 (n : ℚ) * (1 + s / 2)) ∧
      min (round10 (n : ℚ) * (1 - s / 2)) (round10 (n : ℚ) * (1 + s / 2)) - 1 < (m : ℚ) ∧
      (m : ℚ) < max (round10 (n : ℚ) * (1 - s / 2)) (round10 (n : ℚ) * (1 + s / 2)) + 1) := by
  constructor
  · intro q
    exact ⟨rfl, scaledNoisy_bounds q s r hr0 hr1 hs⟩
  · intro n
    obtain ⟨hlo, hhi⟩ := scaledNoisy_bounds (n : ℚ) s r hr0 hr1 hs
    have hcl := intTrunc_close (scaledNoisy (n : ℚ) s r)
    rw [abs_lt] at hcl
    exact ⟨intTrunc (scaledNoisy (n : ℚ) s r), rfl, hlo, hhi,
      by linarith [hcl.1], by linarith [hcl.2]⟩

/-- Witness for the amended C6 at `s = 1/5`, `r = 1/2`, inputs
`65.0` and `10`. -/
theorem C6_witness :
    (scaleValue (.pfloat 65) (1 / 5) (1 / 2) = .pfloat (scaledNoisy 65 (1 / 5) (1 / 2)) ∧
      min (round10 65 * (1 - (1 / 5) / 2)) (round10 65 * (1 + (1 / 5) / 2))
        ≤ scaledNoisy 65 (1 / 5) (1 / 2) ∧
      scaledNoisy 65 (1 / 5) (1 / 2)
        ≤ max (round10 65 * (1 - (1 / 5) / 2)) (round10 65 * (1 + (1 / 5) / 2))) ∧
    (∃ m : Int, scaleValue (.pint 10) (1 / 5) (1 / 2) = .pint m ∧
      min (round10 ((10 : Int) : ℚ) * (1 - (1 / 5) / 2))
          (round10 ((10 : Int) : ℚ) * (1 + (1 / 5) / 2))
        ≤ scaledNoisy ((10 : Int) : ℚ) (1 / 5) (1 / 2) ∧
      scaledNoisy ((10 : Int) : ℚ) (1 / 5) (1 / 2)
        ≤ max (round10 ((10 : Int) : ℚ) * (1 - (1 / 5) / 2))
            (round10 ((10 : Int) : ℚ) * (1 + (1 / 5) / 2)) ∧
      min (round10 ((10 : Int) : ℚ) * (1 - (1 / 5) / 2))
          (round10 ((10 : Int) : ℚ) * (1 + (1 / 5) / 2)) - 1 < (m : ℚ) ∧
      (m : ℚ) < max (round10 ((10 : Int) : ℚ) * (1 - (1 / 5) / 2))
          (round10 ((10 : Int) : ℚ) * (1 + (1 / 5) / 2)) + 1) :=
  ⟨(C6_noise_bounds (1 / 5) (1 / 2) (by norm_num) (by norm_num) (by norm_num)).1 65,
   (C6_noise_bounds (1 / 5) (1 / 2) (by norm_num) (by norm_num) (by norm_num)).2 10⟩

/-- The field-level change set of `anonymize_patient` for a record with
truthy phone, email and identifier: `organizationId` is copied
unchanged; the eight rewritten fields carry exactly the synthetic
values, and hence each differs from its original whenever the synthetic
value drawn for it does. -/
def patientChangeSet (p pout : List (String × PyV)) (given family bdate : Str)
    (s : AnonState) : Prop :=
  lookupA pout "organizationId" = lookupA p "organizationId" ∧
  lookupA pout "nameGiven" = some (.vstr given) ∧
  lookupA pout "nameFamily" = some (.vstr family) ∧
  lookupA pout "birthDate" = some (.vstr bdate) ∧
  lookupA pout "telecomPhone" = some (.vstr phonePlaceholder) ∧
  lookupA pout "telecomEmail" = some (.vstr (emailOf given family)) ∧
  lookupA pout "identifier" = some (.vstr (randomUuid s).1) ∧
  (some (PyV.vstr given) ≠ lookupA p "nameGiven" →
    lookupA pout "nameGiven" ≠ lookupA p "nameGiven") ∧
  (some (PyV.vstr family) ≠ lookupA p "nameFamily" →
    lookupA pout "nameFamily" ≠ lookupA p "nameFamily") ∧
  (some (PyV.vstr bdate) ≠ lookupA p "birthDate" →
    lookupA pout "birthDate" ≠ lookupA p "birthDate") ∧
  (some (PyV.vstr phonePlaceholder) ≠ lookupA p "telecomPhone" →
    lookupA pout "telecomPhone" ≠ lookupA p "telecomPhone") ∧
  (some (PyV.vstr (emailOf given family)) ≠ lookupA p "telecomEmail" →
    lookupA pout "telecomEmail" ≠ lookupA p "telecomEmail") ∧
  (some (PyV.vstr (randomUuid s).1) ≠ lookupA p "identifier" →
    lookupA pout "identifier" ≠ lookupA p "identifier") ∧
  (∃ nid njid : Int, lookupA pout "id" = some (.vint nid) ∧
    lookupA pout "jheUserId" = some (.vint njid) ∧
    (some (PyV.vint nid) ≠ lookupA p "id" →
      lookupA pout "id" ≠ lookupA p "id") ∧
    (some (PyV.vint njid) ≠ lookupA p "jheUserId" →
      lookupA pout "jheUserId" ≠ lookupA p "jheUserId"))

/-- C8 (amended): for a patient with truthy phone, email and
identifier, a successful `anonymize_patient` satisfies the field-level
change set: `organizationId` preserved exactly, every other §4.2 field
overwritten with its synthetic value (differing from the original
whenever the drawn synthetic value differs — not unconditionally, see
the counterexample). -/
theorem C8_field_change_set (rng : Nat → Int) (fuel : Nat)
    (given family bdate : Str) (p : List (String × PyV)) (s : AnonState)
    (pout : List (String × PyV)) (s₁ : AnonState)
    (phone email ident : PyV)
    (hrun : anonPatient rng fuel given family bdate p s = some (pout, s₁))
    (hp : lookupA p "telecomPhone" = some phone) (htp : truthy phone = true)
    (he : lookupA p "telecomEmail" = some email) (hte : truthy email = true)
    (hi : lookupA p "identifier" = some ident) (hti : truthy ident = true) :
    patientChangeSet p pout given family bdate s := by
  unfold anonPatient at hrun
  split at hrun
  · rename_i org phone₀ email₀ ident₀ pid juid h1 h2 h3 h4 h5 h6
    rw [hp] at h2
    rw [he] at h3
    rw [hi] at h4
    simp only [Option.some_inj] at h2 h3 h4
    subst h2
    subst h3
    subst h4
    split at hrun
    · exact absurd hrun (by simp)
    · rename_i s₂ nid h7
      split at hrun
      · exact absurd hrun (by simp)
      · rename_i s₃ njid h8
        simp only [Option.some_inj, Prod.mk.injEq] at hrun
        obtain ⟨hpout, hs⟩ := hrun
        subst hpout
        have hfront : patientFront given family bdate phone email org =
            [("organizationId", org), ("nameGiven", PyV.vstr given),
             ("nameFamily", PyV.vstr family),
             ("telecomPhone", PyV.vstr phonePlaceholder),
             ("telecomEmail", PyV.vstr (emailOf given family)),
             ("birthDate", PyV.vstr bdate)] := by
          unfold patientFront
          rw [if_pos htp, if_pos hte]
          rfl
        have hident : patientIdent ident s =
            ([("identifier", PyV.vstr (randomUuid s).1)], (randomUuid s).2) := by
          unfold patientIdent
          rw [if_pos hti]
        unfold patientChangeSet
        rw [hfront, hident]
        simp only [List.cons_append, List.nil_append]
        refine ⟨by simp [lookupA, h1], by simp [lookupA], by simp [lookupA],
          by simp [lookupA], by simp [lookupA], by simp [lookupA],
          by simp [lookupA],
          fun hne => by simpa [lookupA] using hne,
          fun hne => by simpa [lookupA] using hne,
          fun hne => by simpa [lookupA] using hne,
          fun hne => by simpa [lookupA] using hne,
          fun hne => by simpa [lookupA] using hne,
          fun hne => by simpa [lookupA] using hne,
          nid, njid, by simp [lookupA], by simp [lookupA],
          fun hne => by simpa [lookupA] using hne,
          fun hne => by simpa [lookupA] using hne⟩
  · exact absurd hrun (by simp)

/-- Concrete input patient for the C8 witness run (all optional fields
truthy). -/
def c8wPatient : List (String × PyV) :=
  [("organizationId", .vint 20026),
   ("telecomPhone", .vstr (strC "(801) 555-1233")),
   ("telecomEmail", .vstr (strC "heather.williams@example.edu")),
   ("identifier", .vstr (strC "some-external-id")),
   ("id", .vint 45439), ("jheUserId", .vint 19259),
   ("nameGiven", .vstr (strC "Heather")), ("nameFamily", .vstr (strC "Williams")),
   ("birthDate", .vstr (strC "1967-12-09"))]

/-- The record the C8 witness run produces. -/
def c8wOut : List (String × PyV) :=
  [("organizationId", .vint 20026), ("nameGiven", .vstr (strC "Ga")),
   ("nameFamily", .vstr (strC "Fa")), ("telecomPhone", .vstr phonePlaceholder),
   ("telecomEmail", .vstr (emailOf (strC "Ga") (strC "Fa"))),
   ("birthDate", .vstr (strC "1990-01-01")),
   ("identifier", .vstr (strC "u-u-i-d-1")),
   ("id", .vint 41000), ("jheUserId", .vint 41001)]

/-- Witness for the amended C8 at a concrete run. -/
theorem C8_witness :
    patientChangeSet c8wPatient c8wOut (strC "Ga") (strC "Fa")
      (strC "1990-01-01") initState :=
  C8_field_change_set (fun n => 41000 + n) 2 (strC "Ga") (strC "Fa")
    (strC "1990-01-01") c8wPatient initState c8wOut
    ⟨[(strC "User/19259", 41001), (strC "Patient/45439", 41000)],
     [(41001, strC "User/19259"), (41000, strC "Patient/45439")], 2, 1⟩
    (.vstr (strC "(801) 555-1233"))
    (.vstr (strC "heather.williams@example.edu"))
    (.vstr (strC "some-external-id"))
    (by decide) (by decide) (by decide) (by decide) (by decide)
    (by decide) (by decide)

/-- Concrete patient whose phone is already the placeholder. -/
def c8cPatient : List (String × PyV) :=
  [("organizationId", .vint 20026),
   ("telecomPhone", .vstr phonePlaceholder),
   ("telecomEmail", .vstr (strC "heather.williams@example.edu")),
   ("identifier", .vstr (strC "some-external-id")),
   ("id", .vint 45439), ("jheUserId", .vint 19259),
   ("nameGiven", .vstr (strC "Heather")), ("nameFamily", .vstr (strC "Williams")),
   ("birthDate", .vstr (strC "1967-12-09"))]

/-- Counterexample to C8 as stated: a patient whose (non-empty) phone is
already the constant placeholder keeps an identical `telecomPhone`
after anonymization, so "every other rewritten field differs" fails. -/
theorem C8_counterexample :
    truthy (PyV.vstr phonePlaceholder) = true ∧
    (anonPatient (fun n => 41000 + n) 2 (strC "Ga") (strC "Fa")
        (strC "1990-01-01") c8cPatient initState).map
          (fun r => lookupA r.1 "telecomPhone")
      = some (lookupA c8cPatient "telecomPhone") :=
  ⟨by decide, by decide⟩

/-- The key list of a flat record. -/
def keysA (l : List (String × PyV)) : List String := l.map Prod.fst

mutual

/-- Erase every leaf of a JSON value, keeping only its nested shape
(array lengths, object key lists). -/
def scrub : JVal → JVal
  | .jstr _ => .jnull
  | .jint _ => .jnull
  | .jrat _ => .jnull
  | .jbool _ => .jnull
  | .jnull => .jnull
  | .jarr xs => .jarr (scrubL xs)
  | .jobj fs => .jobj (scrubF fs)

/-- Shape of an array. -/
def scrubL : List JVal → List JVal
  | [] => []
  | x :: xs => scrub x :: scrubL xs

/-- Shape of an object. -/
def scrubF : List (String × JVal) → List (String × JVal)
  | [] => []
  | (k, v) :: fs => (k, scrub v) :: scrubF fs

end

/-- Replacing the scalar value of an existing key with a scalar keeps
the object's shape. -/
theorem scrubF_setJ (fs : List (String × JVal)) (k : String) (v w : JVal)
    (hget : getJ fs k = some v) (hv : scrub v = .jnull) (hw : scrub w = .jnull) :
    scrubF (setJ fs k w) = scrubF fs := by
  induction fs with
  | nil => simp [getJ] at hget
  | cons p rest ih =>
    rcases p with ⟨k₀, v₀⟩
    by_cases hk : k₀ = k
    · subst hk
      simp only [getJ, if_true, Option.some_inj, reduceIte] at hget
      subst hget
      simp [setJ, scrubF, hv, hw]
    · simp only [getJ, if_neg hk] at hget
      simp [setJ, hk, scrubF, ih hget]

/-- The identifier loop keeps the shape of the identifier list when
every element is an object that already has a scalar `value` field. -/
theorem anonIdentifiers_scrub (items : List JVal) :
    ∀ (s : AnonState) (items' : List JVal) (s' : AnonState),
      anonIdentifiers items s = some (items', s') →
      (∀ item ∈ items, ∃ fsI, item = JVal.jobj fsI ∧
        ∃ v, getJ fsI "value" = some v ∧ scrub v = .jnull) →
      scrubL items' = scrubL items := by
  induction items with
  | nil =>
    intro s items' s' h _
    simp [anonIdentifiers] at h
    rw [← h.1]
  | cons x rest ih =>
    intro s items' s' h hyp
    obtain ⟨fsI, hx, v, hget, hv⟩ := hyp x (List.mem_cons_self x rest)
    subst hx
    simp only [anonIdentifiers, Option.map_eq_some'] at h
    obtain ⟨⟨rest', s₂⟩, hrest, hcons⟩ := h
    have hrec := ih (randomUuid s).2 rest' s₂ hrest
      (fun item hm => hyp item (List.mem_cons_of_mem _ hm))
    simp only [Prod.mk.injEq] at hcons
    obtain ⟨hc1, hc2⟩ := hcons
    rw [← hc1]
    simp only [scrubL, scrub]
    rw [scrubF_setJ fsI "value" v (JVal.jstr (randomUuid s).1) hget hv
      (by simp [scrub]), hrec]

/-- Replacing the value of an existing key with a value of the same
shape keeps the object's shape. -/
theorem scrubF_setJ_congr (fs : List (String × JVal)) (k : String) (v w : JVal)
    (hget : getJ fs k = some v) (hvw : scrub w = scrub v) :
    scrubF (setJ fs k w) = scrubF fs := by
  induction fs with
  | nil => simp [getJ] at hget
  | cons p rest ih =>
    rcases p with ⟨k₀, v₀⟩
    by_cases hk : k₀ = k
    · subst hk
      simp only [getJ, if_true, Option.some_inj, reduceIte] at hget
      subst hget
      simp [setJ, scrubF, hvw]
    · simp only [getJ, if_neg hk] at hget
      simp [setJ, hk, scrubF, ih hget]

/-- A successful `anonymize_observation` returns a record of exactly
the same nested shape as its input, provided each identifier entry
already carries a scalar `value` field (otherwise the loop would insert
a new key). -/
theorem anonObservation_scrub (rng : Nat → Int) (fuel : Nat)
    (dec : Str → Option JVal) (enc : JVal → Str) (uni : Nat → ℚ) (ns : ℚ)
    (fs : List (String × JVal)) (items : List JVal) (s : AnonState)
    (out : JVal) (s₃ : AnonState)
    (hitems : getJ fs "identifier" = some (.jarr items))
    (hvals : ∀ item ∈ items, ∃ fsI, item = JVal.jobj fsI ∧
      ∃ v, getJ fsI "value" = some v ∧ scrub v = .jnull)
    (hobs : anonObservation rng fuel dec enc uni ns (.jobj fs) s = some (out, s₃)) :
    scrub out = scrub (.jobj fs) := by
  simp only [anonObservation] at hobs
  split at hobs
  · simp at hobs
  rename_i fsC sC hcore
  split at hobs
  · simp at hobs
  rename_i fsD sD hatt
  simp only [Option.some_inj, Prod.mk.injEq] at hobs
  obtain ⟨ho1, ho2⟩ := hobs
  subst ho1
  -- analyze the core rewrite
  unfold anonObsCore at hcore
  split at hcore
  · simp at hcore
  rename_i idv hidv
  split at hcore
  · simp at hcore
  rename_i idStr hidStr
  split at hcore
  · simp at hcore
  rename_i hA sA nidA hArun
  have hscrub_id : scrub idv = .jnull := by
    unfold jvalIdStr at hidStr
    cases idv <;> simp_all [scrub]
  have hstep1 : scrubF (setJ fs "id" (.jint nidA)) = scrubF fs :=
    scrubF_setJ_congr fs "id" idv (.jint nidA) hidv (by simp [scrub, hscrub_id])
  have hitems₁ : getJ (setJ fs "id" (.jint nidA)) "identifier"
      = some (.jarr items) := by
    rw [getJ_setJ_other _ _ _ _ (by decide)]
    exact hitems
  split at hcore
  case _ items₀ hitems₀ =>
    rw [hitems₁] at hitems₀
    simp only [Option.some_inj, JVal.jarr.injEq] at hitems₀
    subst hitems₀
    split at hcore
    · simp at hcore
    rename_i hB itemsB sB hBrun
    have hscrubL : scrubL itemsB = scrubL items :=
      anonIdentifiers_scrub items sA itemsB sB hBrun hvals
    have hstep2 : scrubF (setJ (setJ fs "id" (.jint nidA)) "identifier"
        (.jarr itemsB)) = scrubF (setJ fs "id" (.jint nidA)) :=
      scrubF_setJ_congr _ "identifier" (.jarr items) (.jarr itemsB) hitems₁
        (by simp [scrub, hscrubL])
    split at hcore
    case _ sub hsub =>
      split at hcore
      case _ ref href =>
        split at hcore
        · simp at hcore
        rename_i pid hpid
        split at hcore
        · simp at hcore
        rename_i hC sC₀ sid hCrun
        simp only [Option.some_inj, Prod.mk.injEq] at hcore
        obtain ⟨hc1, hc2⟩ := hcore
        have hsub' : scrubF (setJ sub "reference"
            (.jstr ((partitionFirst '/' ref).1 ++ '/' :: intToStr sid)))
            = scrubF sub :=
          scrubF_setJ_congr sub "reference" (.jstr ref) _ href (by simp [scrub])
        have hstep3 : scrubF (setJ (setJ (setJ fs "id" (.jint nidA)) "identifier"
            (.jarr itemsB)) "subject" (.jobj (setJ sub "reference"
            (.jstr ((partitionFirst '/' ref).1 ++ '/' :: intToStr sid)))))
            = scrubF (setJ (setJ fs "id" (.jint nidA)) "identifier"
              (.jarr itemsB)) :=
          scrubF_setJ_congr _ "subject" (.jobj sub) _ hsub
            (by simp [scrub, hsub'])
        -- analyze the attachment rewrite
        unfold anonObsAttachment at hatt
        split at hatt
        case _ va hva =>
          split at hatt
          case _ data hdata =>
            split at hatt
            case _ vd hvd =>
              split at hatt
              case _ body hbody =>
                split at hatt
                · simp at hatt
                rename_i hnb body' k₀ hnbrun
                split at hatt
                case _ hd hhd =>
                  simp only [Option.some_inj, Prod.mk.injEq] at hatt
                  obtain ⟨ha1, ha2⟩ := hatt
                  have hva' : scrubF (setJ va "data" (.jstr (enc (.jobj (setJ
                      (setJ vd "body" (.jobj body')) "header"
                      (.jobj (anonHeader hd sC).1)))))) = scrubF va :=
                    scrubF_setJ_congr va "data" (.jstr data) _ hdata
                      (by simp [scrub])
                  have hstep4 : scrubF (setJ fsC "valueAttachment" (.jobj (setJ
                      va "data" (.jstr (enc (.jobj (setJ (setJ vd "body"
                      (.jobj body')) "header"
                      (.jobj (anonHeader hd sC).1)))))))) = scrubF fsC :=
                    scrubF_setJ_congr fsC "valueAttachment" (.jobj va) _ hva
                      (by simp [scrub, hva'])
                  rw [← ha1]
                  simp only [scrub]
                  rw [hstep4, ← hc1, hstep3, hstep2, hstep1]
                · simp at hatt
              · simp at hatt
            · simp at hatt
          · simp at hatt
        · simp at hatt
      · simp at hcore
    · simp at hcore
  · simp at hcore

/-- C9 (amended): the transforms are structure-preserving in the
following senses.  `anonymize_user`: when the input has the canonical
user keys, the output has the same key set.  `anonymize_patient`: when
the input has the canonical patient keys and its phone, email and
identifier are truthy, the output has the same key set (a falsy
optional field's key is dropped — see the counterexample).
`anonymize_observation`: the output has exactly the input's nested
shape, provided each identifier entry carries a scalar `value` field. -/
theorem C9_structural_identity :
    (∀ (rng : Nat → Int) (fuel : Nat) (fn ln : Str) (user : List (String × PyV))
        (s : AnonState) (out : List (String × PyV)) (s' : AnonState),
      anonUser rng fuel fn ln user s = some (out, s') →
      (∀ k, k ∈ keysA user ↔
        k ∈ ["id", "email", "firstName", "lastName", "patient"]) →
      ∀ k, k ∈ keysA out ↔ k ∈ keysA user) ∧
    (∀ (rng : Nat → Int) (fuel : Nat) (given family bdate : Str)
        (p : List (String × PyV)) (s : AnonState) (pout : List (String × PyV))
        (s₁ : AnonState) (phone email ident : PyV),
      anonPatient rng fuel given family bdate p s = some (pout, s₁) →
      lookupA p "telecomPhone" = some phone → truthy phone = true →
      lookupA p "telecomEmail" = some email → truthy email = true →
      lookupA p "identifier" = some ident → truthy ident = true →
      (∀ k, k ∈ keysA p ↔ k ∈ ["id", "jheUserId", "identifier", "nameFamily",
        "nameGiven", "birthDate", "telecomPhone", "telecomEmail",
        "organizationId"]) →
      ∀ k, k ∈ keysA pout ↔ k ∈ keysA p) ∧
    (∀ (rng : Nat → Int) (fuel : Nat) (dec : Str → Option JVal)
        (enc : JVal → Str) (uni : Nat → ℚ) (ns : ℚ)
        (fs : List (String × JVal)) (items : List JVal) (s : AnonState)
        (out : JVal) (s₃ : AnonState),
      getJ fs "identifier" = some (.jarr items) →
      (∀ item ∈ items, ∃ fsI, item = JVal.jobj fsI ∧
        ∃ v, getJ fsI "value" = some v ∧ scrub v = .jnull) →
      anonObservation rng fuel dec enc uni ns (.jobj fs) s = some (out, s₃) →
      scrub out = scrub (.jobj fs)) := by
  refine ⟨?_, ?_, ?_⟩
  · intro rng fuel fn ln user s out s' hrun hcanon
    unfold anonUser at hrun
    split at hrun
    · split at hrun
      · exact absurd hrun (by simp)
      · rename_i sA nid hA
        simp only [Option.some_inj, Prod.mk.injEq] at hrun
        obtain ⟨hout, hs⟩ := hrun
        intro k
        rw [← hout]
        rw [hcanon k]
        simp [keysA]
        tauto
    · exact absurd hrun (by simp)
  · intro rng fuel given family bdate p s pout s₁ phone email ident
      hrun hp htp he hte hi hti hcanon
    unfold anonPatient at hrun
    split at hrun
    · rename_i org phone₀ email₀ ident₀ pid juid h1 h2 h3 h4 h5 h6
      rw [hp] at h2
      rw [he] at h3
      rw [hi] at h4
      simp only [Option.some_inj] at h2 h3 h4
      subst h2
      subst h3
      subst h4
      split at hrun
      · exact absurd hrun (by simp)
      · rename_i s₂ nid h7
        split at hrun
        · exact absurd hrun (by simp)
        · rename_i s₃ njid h8
          simp only [Option.some_inj, Prod.mk.injEq] at hrun
          obtain ⟨hpout, hs⟩ := hrun
          have hfront : patientFront given family bdate phone email org =
              [("organizationId", org), ("nameGiven", PyV.vstr given),
               ("nameFamily", PyV.vstr family),
               ("telecomPhone", PyV.vstr phonePlaceholder),
               ("telecomEmail", PyV.vstr (emailOf given family)),
               ("birthDate", PyV.vstr bdate)] := by
            unfold patientFront
            rw [if_pos htp, if_pos hte]
            rfl
          have hident : patientIdent ident s =
              ([("identifier", PyV.vstr (randomUuid s).1)], (randomUuid s).2) := by
            unfold patientIdent
            rw [if_pos hti]
          intro k
          rw [← hpout, hfront, hident, hcanon k]
          simp [keysA]
          tauto
    · exact absurd hrun (by simp)
  · intro rng fuel dec enc uni ns fs items s out s₃ hitems hvals hobs
    exact anonObservation_scrub rng fuel dec enc uni ns fs items s out s₃
      hitems hvals hobs

/-- A canonical-key patient whose `telecomPhone` is `None` (the key is
present but falsy). -/
def c9cPatient : List (String × PyV) :=
  [("id", .vint 45439), ("jheUserId", .vint 19259),
   ("identifier", .vstr (strC "some-external-id")),
   ("nameFamily", .vstr (strC "Williams")), ("nameGiven", .vstr (strC "Heather")),
   ("birthDate", .vstr (strC "1967-12-09")), ("telecomPhone", .vnone),
   ("telecomEmail", .vstr (strC "heather.williams@example.edu")),
   ("organizationId", .vint 20026)]

/-- Counterexample to C9 as stated: for a patient whose `telecomPhone`
is `None`, the input has the key but the anonymized record does not, so
the output is not structurally identical to the input. -/
theorem C9_counterexample :
    "telecomPhone" ∈ keysA c9cPatient ∧
    (anonPatient (fun n => 41000 + n) 2 (strC "Ga") (strC "Fa")
        (strC "1990-01-01") c9cPatient initState).map
          (fun r => decide ("telecomPhone" ∈ keysA r.1))
      = some false :=
  ⟨by decide, by decide⟩

/-- A canonical-key user record. -/
def c9User : List (String × PyV) :=
  [("id", .vint 10001), ("email", .vstr (strC "user@real.example.org")),
   ("firstName", .vstr (strC "User")), ("lastName", .vstr (strC "Name")),
   ("patient", .vint 40001)]

/-- A canonical-key patient record with truthy optional fields, keys in
the canonical order. -/
def c9wPatient : List (String × PyV) :=
  [("id", .vint 45439), ("jheUserId", .vint 19259),
   ("identifier", .vstr (strC "some-external-id")),
   ("nameFamily", .vstr (strC "Williams")), ("nameGiven", .vstr (strC "Heather")),
   ("birthDate", .vstr (strC "1967-12-09")),
   ("telecomPhone", .vstr (strC "(801) 555-1233")),
   ("telecomEmail", .vstr (strC "heather.williams@example.edu")),
   ("organizationId", .vint 20026)]

/-- Witness for the amended C9 at concrete runs of all three
transforms. -/
theorem C9_witness :
    ("patient" ∈ keysA [("firstName", PyV.vstr (strC "Ga")),
        ("lastName", PyV.vstr (strC "Fa")),
        ("email", PyV.vstr (emailOf (strC "Ga") (strC "Fa"))),
        ("patient", PyV.vnone), ("id", PyV.vint 41000)] ↔
      "patient" ∈ keysA c9User) ∧
    ("telecomPhone" ∈ keysA c8wOut ↔ "telecomPhone" ∈ keysA c9wPatient) ∧
    scrub c2ObsOut = scrub (.jobj c2ObsFields) := by
  refine ⟨?_, ?_, ?_⟩
  · exact C9_structural_identity.1 (fun n => 41000 + n) 2 (strC "Ga") (strC "Fa")
      c9User initState _
      ⟨[(strC "User/10001", 41000)], [(41000, strC "User/10001")], 1, 0⟩
      (by decide) (fun k => Iff.rfl) "patient"
  · exact C9_structural_identity.2.1 (fun n => 41000 + n) 2 (strC "Ga")
      (strC "Fa") (strC "1990-01-01") c9wPatient initState c8wOut
      ⟨[(strC "User/19259", 41001), (strC "Patient/45439", 41000)],
       [(41001, strC "User/19259"), (41000, strC "Patient/45439")], 2, 1⟩
      (.vstr (strC "(801) 555-1233"))
      (.vstr (strC "heather.williams@example.edu"))
      (.vstr (strC "some-external-id"))
      (by decide) (by decide) (by decide) (by decide) (by decide) (by decide)
      (by decide) (fun k => Iff.rfl) "telecomPhone"
  · exact C9_structural_identity.2.2 (fun n => 41000 + n) 2
      (fun _ => some (.jobj [("body", .jobj []), ("header", .jobj [])]))
      (fun _ => strC "YY") (fun _ => (1 : ℚ) / 2) ((1 : ℚ) / 5)
      c2ObsFields [] c2State1 c2ObsOut c2State3
      (by decide) (fun item h => absurd h (List.not_mem_nil item))
      (by decide)

/-!
Heap model for the non-mutation claim.  Python records are graphs of
mutable dict/list objects; we model a heap of numbered objects whose
slots hold scalars or references, `copy.deepcopy` as a fresh-address
copy, and each transform as an explicit heap transformer, so that
"the caller's record is never altered" becomes: every address below
the allocation frontier holds exactly what it held before the call.
Generated values (names, ids, uuids, the re-encoded attachment string)
are parameters here; their computation is modelled by the pure
embedding above and is irrelevant to the frame property.  `deepcopy`'s
memoisation of shared references is not modelled: it only affects
sharing inside the copy, not the input region. -/

/-- A slot value of a Python object: scalar or reference. -/
inductive PVal
  | vstr : Str → PVal
  | vint : Int → PVal
  | vnum : ℚ → PVal
  | vnull : PVal
  | vref : Nat → PVal
  deriving Repr, DecidableEq

/-- A Python heap object: a dict or a list. -/
inductive PObj
  | pdict : List (String × PVal) → PObj
  | plist : List PVal → PObj
  deriving Repr, DecidableEq

/-- The heap: object addresses to objects. -/
def Heap := Nat → Option PObj

/-- Bind address `a` to object `o`. -/
def hset (h : Heap) (a : Nat) (o : PObj) : Heap :=
  fun x => if x = a then some o else h x

/-- Dict-field lookup within an object's slot list. -/
def lookupF : List (String × PVal) → String → Option PVal
  | [], _ => none
  | (k, v) :: rest, key => if k = key then some v else lookupF rest key

/-- Dict-field assignment: replace in place, append if absent. -/
def setF : List (String × PVal) → String → PVal → List (String × PVal)
  | [], key, v => [(key, v)]
  | (k, w) :: rest, key, v =>
    if k = key then (key, v) :: rest else (k, w) :: setF rest key v

/-- `d[k]` on the object at address `a` (`none` = Python raises). -/
def hGetField (h : Heap) (a : Nat) (k : String) : Option PVal :=
  match h a with
  | some (.pdict fs) => lookupF fs k
  | _ => none

/-- `d[k] = v` on the object at address `a`. -/
def hSetField (h : Heap) (a : Nat) (k : String) (v : PVal) : Option Heap :=
  match h a with
  | some (.pdict fs) => some (hset h a (.pdict (setF fs k v)))
  | _ => none

mutual

/-- `copy.deepcopy` of a slot value: scalars are returned as-is, a
reference is copied by allocating the referenced object's copy at the
next free address.  `orig` is the heap being read, `h`/`nx` the heap
and allocation frontier being extended.  Fuel is consumed on every
step; any fuel exceeding the record's size is enough. -/
def dcopyV (orig : Heap) : Nat → PVal → Heap → Nat → Option (PVal × Heap × Nat)
  | 0, _, _, _ => none
  | _ + 1, .vstr t, h, nx => some (.vstr t, h, nx)
  | _ + 1, .vint n, h, nx => some (.vint n, h, nx)
  | _ + 1, .vnum q, h, nx => some (.vnum q, h, nx)
  | _ + 1, .vnull, h, nx => some (.vnull, h, nx)
  | fuel + 1, .vref a, h, nx =>
    match orig a with
    | none => none
    | some (.pdict fs) =>
      match dcopyF orig fuel fs h (nx + 1) with
      | none => none
      | some (fs₂, h₂, nx₂) => some (.vref nx, hset h₂ nx (.pdict fs₂), nx₂)
    | some (.plist xs) =>
      match dcopyL orig fuel xs h (nx + 1) with
      | none => none
      | some (xs₂, h₂, nx₂) => some (.vref nx, hset h₂ nx (.plist xs₂), nx₂)

/-- Deep copy of a dict's slots. -/
def dcopyF (orig : Heap) : Nat → List (String × PVal) → Heap → Nat →
    Option (List (String × PVal) × Heap × Nat)
  | 0, _, _, _ => none
  | _ + 1, [], h, nx => some ([], h, nx)
  | fuel + 1, (k, v) :: rest, h, nx =>
    match dcopyV orig fuel v h nx with
    | none => none
    | some (v₂, h₂, nx₂) =>
      match dcopyF orig fuel rest h₂ nx₂ with
      | none => none
      | some (rest₂, h₃, nx₃) => some ((k, v₂) :: rest₂, h₃, nx₃)

/-- Deep copy of a list's slots. -/
def dcopyL (orig : Heap) : Nat → List PVal → Heap → Nat →
    Option (List PVal × Heap × Nat)
  | 0, _, _, _ => none
  | _ + 1, [], h, nx => some ([], h, nx)
  | fuel + 1, v :: rest, h, nx =>
    match dcopyV orig fuel v h nx with
    | none => none
    | some (v₂, h₂, nx₂) =>
      match dcopyL orig fuel rest h₂ nx₂ with
      | none => none
      | some (rest₂, h₃, nx₃) => some (v₂ :: rest₂, h₃, nx₃)

end

/-- A slot value only references addresses in `[lo, hi)`. -/
def valOk (lo hi : Nat) : PVal → Prop
  | .vref b => lo ≤ b ∧ b < hi
  | _ => True

/-- An object only references addresses in `[lo, hi)`. -/
def objOk (lo hi : Nat) : PObj → Prop
  | .pdict fs => ∀ kv ∈ fs, valOk lo hi kv.2
  | .plist xs => ∀ x ∈ xs, valOk lo hi x

/-- Every address of `[lo, hi)` is populated and self-contained. -/
def RegionOk (h : Heap) (lo hi : Nat) : Prop :=
  ∀ a, lo ≤ a → a < hi → ∃ o, h a = some o ∧ objOk lo hi o

theorem valOk_mono (lo lo' hi hi' : Nat) (v : PVal) (hl : lo' ≤ lo)
    (hh : hi ≤ hi') (h : valOk lo hi v) : valOk lo' hi' v := by
  cases v with
  | vstr t => exact h
  | vint n => exact h
  | vnum q => exact h
  | vnull => exact h
  | vref b =>
    obtain ⟨h1, h2⟩ := h
    exact ⟨by omega, by omega⟩

theorem objOk_mono (lo lo' hi hi' : Nat) (o : PObj) (hl : lo' ≤ lo)
    (hh : hi ≤ hi') (h : objOk lo hi o) : objOk lo' hi' o := by
  cases o with
  | pdict fs =>
    intro kv hkv
    exact valOk_mono lo lo' hi hi' kv.2 hl hh (h kv hkv)
  | plist xs =>
    intro x hx
    exact valOk_mono lo lo' hi hi' x hl hh (h x hx)

/-- Specification of the deep copy: the pre-existing heap (below the
allocation frontier `nx`) and everything at or beyond the final
frontier `nx₂` are untouched, the copied value only references the new
region `[nx, nx₂)`, and that region is populated and
self-contained. -/
theorem dcopy_spec (orig : Heap) : ∀ fuel : Nat,
    (∀ v h nx v₂ h₂ nx₂, dcopyV orig fuel v h nx = some (v₂, h₂, nx₂) →
      nx ≤ nx₂ ∧ (∀ a, a < nx → h₂ a = h a) ∧ (∀ a, nx₂ ≤ a → h₂ a = h a) ∧
      valOk nx nx₂ v₂ ∧ RegionOk h₂ nx nx₂) ∧
    (∀ fs h nx fs₂ h₂ nx₂, dcopyF orig fuel fs h nx = some (fs₂, h₂, nx₂) →
      nx ≤ nx₂ ∧ (∀ a, a < nx → h₂ a = h a) ∧ (∀ a, nx₂ ≤ a → h₂ a = h a) ∧
      (∀ kv ∈ fs₂, valOk nx nx₂ kv.2) ∧ RegionOk h₂ nx nx₂) ∧
    (∀ xs h nx xs₂ h₂ nx₂, dcopyL orig fuel xs h nx = some (xs₂, h₂, nx₂) →
      nx ≤ nx₂ ∧ (∀ a, a < nx → h₂ a = h a) ∧ (∀ a, nx₂ ≤ a → h₂ a = h a) ∧
      (∀ x ∈ xs₂, valOk nx nx₂ x) ∧ RegionOk h₂ nx nx₂) := by
  intro fuel
  induction fuel with
  | zero =>
    refine ⟨?_, ?_, ?_⟩ <;> intro x h nx y h₂ nx₂ hrun <;> simp [dcopyV, dcopyF, dcopyL] at hrun
  | succ fuel ih =>
    obtain ⟨ihV, ihF, ihL⟩ := ih
    refine ⟨?_, ?_, ?_⟩
    · intro v h nx v₂ h₂ nx₂ hrun
      cases v with
      | vstr t =>
        simp only [dcopyV, Option.some_inj, Prod.mk.injEq] at hrun
        obtain ⟨h1, h2, h3⟩ := hrun
        subst h1; subst h2; subst h3
        exact ⟨le_refl _, fun a _ => rfl, fun a _ => rfl, trivial,
          fun a ha hb => absurd hb (by omega)⟩
      | vint n =>
        simp only [dcopyV, Option.some_inj, Prod.mk.injEq] at hrun
        obtain ⟨h1, h2, h3⟩ := hrun
        subst h1; subst h2; subst h3
        exact ⟨le_refl _, fun a _ => rfl, fun a _ => rfl, trivial,
          fun a ha hb => absurd hb (by omega)⟩
      | vnum q =>
        simp only [dcopyV, Option.some_inj, Prod.mk.injEq] at hrun
        obtain ⟨h1, h2, h3⟩ := hrun
        subst h1; subst h2; subst h3
        exact ⟨le_refl _, fun a _ => rfl, fun a _ => rfl, trivial,
          fun a ha hb => absurd hb (by omega)⟩
      | vnull =>
        simp only [dcopyV, Option.some_inj, Prod.mk.injEq] at hrun
        obtain ⟨h1, h2, h3⟩ := hrun
        subst h1; subst h2; subst h3
        exact ⟨le_refl _, fun a _ => rfl, fun a _ => rfl, trivial,
          fun a ha hb => absurd hb (by omega)⟩
      | vref b =>
        simp only [dcopyV] at hrun
        split at hrun
        · exact absurd hrun (by simp)
        · rename_i fs horig
          split at hrun
          · exact absurd hrun (by simp)
          · rename_i fs₂ hh nn hcopy
            simp only [Option.some_inj, Prod.mk.injEq] at hrun
            obtain ⟨h1, h2, h3⟩ := hrun
            subst h1; subst h2; subst h3
            obtain ⟨g1, g2, g3, g4, g5⟩ := ihF fs h (nx + 1) fs₂ hh nn hcopy
            refine ⟨by omega, ?_, ?_, by simp [valOk]; omega, ?_⟩
            · intro a ha
              simp only [hset, if_neg (by omega : ¬a = nx)]
              exact g2 a (by omega)
            · intro a ha
              simp only [hset, if_neg (by omega : ¬a = nx)]
              exact g3 a ha
            · intro a ha hb
              by_cases hax : a = nx
              · subst hax
                refine ⟨.pdict fs₂, by simp [hset], ?_⟩
                intro kv hkv
                exact valOk_mono (a + 1) a nn nn kv.2 (by omega) (le_refl _)
                  (g4 kv hkv)
              · obtain ⟨o, ho, hok⟩ := g5 a (by omega) hb
                exact ⟨o, by simp [hset, hax]; exact ho,
                  objOk_mono (nx + 1) nx nn nn o (by omega) (le_refl _) hok⟩
        · rename_i xs horig
          split at hrun
          · exact absurd hrun (by simp)
          · rename_i xs₂ hh nn hcopy
            simp only [Option.some_inj, Prod.mk.injEq] at hrun
            obtain ⟨h1, h2, h3⟩ := hrun
            subst h1; subst h2; subst h3
            obtain ⟨g1, g2, g3, g4, g5⟩ := ihL xs h (nx + 1) xs₂ hh nn hcopy
            refine ⟨by omega, ?_, ?_, by simp [valOk]; omega, ?_⟩
            · intro a ha
              simp only [hset, if_neg (by omega : ¬a = nx)]
              exact g2 a (by omega)
            · intro a ha
              simp only [hset, if_neg (by omega : ¬a = nx)]
              exact g3 a ha
            · intro a ha hb
              by_cases hax : a = nx
              · subst hax
                refine ⟨.plist xs₂, by simp [hset], ?_⟩
                intro x hx
                exact valOk_mono (a + 1) a nn nn x (by omega) (le_refl _)
                  (g4 x hx)
              · obtain ⟨o, ho, hok⟩ := g5 a (by omega) hb
                exact ⟨o, by simp [hset, hax]; exact ho,
                  objOk_mono (nx + 1) nx nn nn o (by omega) (le_refl _) hok⟩
    · intro fs h nx fs₂ h₂ nx₂ hrun
      cases fs with
      | nil =>
        simp only [dcopyF, Option.some_inj, Prod.mk.injEq] at hrun
        obtain ⟨h1, h2, h3⟩ := hrun
        subst h1; subst h2; subst h3
        exact ⟨le_refl _, fun a _ => rfl, fun a _ => rfl, by simp,
          fun a ha hb => absurd hb (by omega)⟩
      | cons kv rest =>
        rcases kv with ⟨k, v⟩
        simp only [dcopyF] at hrun
        split at hrun
        · exact absurd hrun (by simp)
        · rename_i v₂ hV nxV hv
          split at hrun
          · exact absurd hrun (by simp)
          · rename_i rest₂ hR nxR hr
            simp only [Option.some_inj, Prod.mk.injEq] at hrun
            obtain ⟨h1, h2, h3⟩ := hrun
            subst h1; subst h2; subst h3
            obtain ⟨a1, a2, a3, a4, a5⟩ := ihV v h nx v₂ hV nxV hv
            obtain ⟨b1, b2, b3, b4, b5⟩ := ihF rest hV nxV rest₂ hR nxR hr
            refine ⟨by omega, ?_, ?_, ?_, ?_⟩
            · intro a ha
              rw [b2 a (by omega), a2 a ha]
            · intro a ha
              rw [b3 a ha, a3 a (by omega)]
            · intro kv hkv
              rcases List.mem_cons.mp hkv with hkv | hkv
              · subst hkv
                exact valOk_mono nx nx nxV nxR v₂ (le_refl _) (by omega) a4
              · exact valOk_mono nxV nx nxR nxR kv.2 (by omega) (le_refl _)
                  (b4 kv hkv)
            · intro a ha hb
              by_cases haV : a < nxV
              · obtain ⟨o, ho, hok⟩ := a5 a ha haV
                exact ⟨o, by rw [b2 a haV]; exact ho,
                  objOk_mono nx nx nxV nxR o (le_refl _) (by omega) hok⟩
              · obtain ⟨o, ho, hok⟩ := b5 a (by omega) hb
                exact ⟨o, ho, objOk_mono nxV nx nxR nxR o (by omega)
                  (le_refl _) hok⟩
    · intro xs h nx xs₂ h₂ nx₂ hrun
      cases xs with
      | nil =>
        simp only [dcopyL, Option.some_inj, Prod.mk.injEq] at hrun
        obtain ⟨h1, h2, h3⟩ := hrun
        subst h1; subst h2; subst h3
        exact ⟨le_refl _, fun a _ => rfl, fun a _ => rfl, by simp,
          fun a ha hb => absurd hb (by omega)⟩
      | cons v rest =>
        simp only [dcopyL] at hrun
        split at hrun
        · exact absurd hrun (by simp)
        · rename_i v₂ hV nxV hv
          split at hrun
          · exact absurd hrun (by simp)
          · rename_i rest₂ hR nxR hr
            simp only [Option.some_inj, Prod.mk.injEq] at hrun
            obtain ⟨h1, h2, h3⟩ := hrun
            subst h1; subst h2; subst h3
            obtain ⟨a1, a2, a3, a4, a5⟩ := ihV v h nx v₂ hV nxV hv
            obtain ⟨b1, b2, b3, b4, b5⟩ := ihL rest hV nxV rest₂ hR nxR hr
            refine ⟨by omega, ?_, ?_, ?_, ?_⟩
            · intro a ha
              rw [b2 a (by omega), a2 a ha]
            · intro a ha
              rw [b3 a ha, a3 a (by omega)]
            · intro x hx
              rcases List.mem_cons.mp hx with hx | hx
              · subst hx
                exact valOk_mono nx nx nxV nxR x (le_refl _) (by omega) a4
              · exact valOk_mono nxV nx nxR nxR x (by omega) (le_refl _)
                  (b4 x hx)
            · intro a ha hb
              by_cases haV : a < nxV
              · obtain ⟨o, ho, hok⟩ := a5 a ha haV
                exact ⟨o, by rw [b2 a haV]; exact ho,
                  objOk_mono nx nx nxV nxR o (le_refl _) (by omega) hok⟩
              · obtain ⟨o, ho, hok⟩ := b5 a (by omega) hb
                exact ⟨o, ho, objOk_mono nxV nx nxR nxR o (by omega)
                  (le_refl _) hok⟩

theorem lookupF_mem (fs : List (String × PVal)) (k : String) (v : PVal)
    (h : lookupF fs k = some v) : (k, v) ∈ fs := by
  induction fs with
  | nil => simp [lookupF] at h
  | cons kw rest ih =>
    rcases kw with ⟨kk, w⟩
    simp only [lookupF] at h
    by_cases hk : kk = k
    · rw [if_pos hk] at h
      injection h with hv
      exact List.mem_cons.mpr (Or.inl (by rw [← hk, ← hv]))
    · rw [if_neg hk] at h
      exact List.mem_cons_of_mem _ (ih h)

theorem mem_setF (fs : List (String × PVal)) (k : String) (v : PVal)
    (kv : String × PVal) (h : kv ∈ setF fs k v) : kv = (k, v) ∨ kv ∈ fs := by
  induction fs with
  | nil =>
    simp [setF] at h
    exact Or.inl h
  | cons kw rest ih =>
    rcases kw with ⟨kk, w⟩
    simp only [setF] at h
    by_cases hk : kk = k
    · rw [if_pos hk] at h
      rcases List.mem_cons.mp h with h | h
      · exact Or.inl h
      · exact Or.inr (List.mem_cons_of_mem _ h)
    · rw [if_neg hk] at h
      rcases List.mem_cons.mp h with h | h
      · exact Or.inr (by rw [h]; exact List.mem_cons_self _ _)
      · rcases ih h with h | h
        · exact Or.inl h
        · exact Or.inr (List.mem_cons_of_mem _ h)

/-- A field write only changes the written address. -/
theorem hSetField_frame (h : Heap) (a : Nat) (k : String) (v : PVal)
    (h' : Heap) (hrun : hSetField h a k v = some h') :
    ∀ b, b ≠ a → h' b = h b := by
  intro b hb
  simp only [hSetField] at hrun
  split at hrun
  · rename_i fs hfs
    injection hrun with hh
    rw [← hh]
    simp [hset, hb]
  · exact Option.noConfusion hrun

/-- A field write of an in-region value at an in-region address
preserves the region invariant. -/
theorem hSetField_region (h : Heap) (lo hi a : Nat) (k : String) (v : PVal)
    (h' : Heap) (hreg : RegionOk h lo hi) (hv : valOk lo hi v)
    (hrun : hSetField h a k v = some h') : RegionOk h' lo hi := by
  intro b hb1 hb2
  simp only [hSetField] at hrun
  split at hrun
  · rename_i fs hfs
    injection hrun with hh
    rw [← hh]
    by_cases hba : b = a
    · refine ⟨.pdict (setF fs k v), by simp [hset, hba], ?_⟩
      intro kv hkv
      rcases mem_setF fs k v kv hkv with hkv | hkv
      · rw [hkv]; exact hv
      · obtain ⟨o, ho, hok⟩ := hreg b hb1 hb2
        rw [hba, hfs] at ho
        injection ho with ho
        rw [← ho] at hok
        exact hok kv hkv
    · obtain ⟨o, ho, hok⟩ := hreg b hb1 hb2
      refine ⟨o, ?_, hok⟩
      simp only [hset, if_neg hba]
      exact ho
  · exact Option.noConfusion hrun

/-- Reading a reference field of an in-region object lands in the
region. -/
theorem region_get_ref (h : Heap) (lo hi a : Nat) (k : String) (b : Nat)
    (hreg : RegionOk h lo hi) (ha1 : lo ≤ a) (ha2 : a < hi)
    (hg : hGetField h a k = some (.vref b)) : lo ≤ b ∧ b < hi := by
  obtain ⟨o, ho, hok⟩ := hreg a ha1 ha2
  cases o with
  | pdict fs =>
    simp only [hGetField, ho] at hg
    exact hok (k, .vref b) (lookupF_mem fs k _ hg)
  | plist xs =>
    simp only [hGetField, ho] at hg
    exact Option.noConfusion hg

/-- The elements of an in-region list object are in-region values. -/
theorem region_list (h : Heap) (lo hi a : Nat) (xs : List PVal)
    (hreg : RegionOk h lo hi) (ha1 : lo ≤ a) (ha2 : a < hi)
    (hl : h a = some (.plist xs)) : ∀ x ∈ xs, valOk lo hi x := by
  obtain ⟨o, ho, hok⟩ := hreg a ha1 ha2
  rw [hl] at ho
  injection ho with ho
  rw [← ho] at hok
  exact hok

/-- Python truthiness of a slot value (containers are truthy iff
nonempty). -/
def pvTruthy (h : Heap) : PVal → Bool
  | .vstr s => !s.isEmpty
  | .vint n => decide (n ≠ 0)
  | .vnum q => decide (q ≠ 0)
  | .vnull => false
  | .vref a =>
    match h a with
    | some (.pdict fs) => !fs.isEmpty
    | some (.plist xs) => !xs.isEmpty
    | none => true

/-- `anonymize_user` on the heap: reads `user["id"]` and builds a brand
new dict at the allocation frontier; the generated name parts and the
synthetic id (computed by `randomId` in the pure embedding) are
parameters. -/
def heapAnonUser (firstName lastName : Str) (newId : Int)
    (h : Heap) (root nx : Nat) : Option (Heap × Nat × Nat) :=
  match h root with
  | some (.pdict fs) =>
    match lookupF fs "id" with
    | some _ =>
      some (hset h nx (.pdict
        [("firstName", .vstr firstName), ("lastName", .vstr lastName),
         ("email", .vstr (emailOf firstName lastName)),
         ("patient", .vnull), ("id", .vint newId)]), nx, nx + 1)
    | none => none
  | _ => none

/-- `anonymize_patient` on the heap: reads the six consulted fields of
the input record (a missing one is a `KeyError`, `none`) and builds a
brand new dict at the allocation frontier, with the conditional
fields present only when the input value is truthy.  Generated values
are parameters. -/
def heapAnonPatient (given family bdate uuid : Str) (newId newUserId : Int)
    (h : Heap) (root nx : Nat) : Option (Heap × Nat × Nat) :=
  match h root with
  | some (.pdict fs) =>
    match lookupF fs "organizationId" with
    | none => none
    | some org =>
      match lookupF fs "telecomPhone" with
      | none => none
      | some phone =>
        match lookupF fs "telecomEmail" with
        | none => none
        | some email =>
          match lookupF fs "identifier" with
          | none => none
          | some ident =>
            match lookupF fs "id" with
            | none => none
            | some _ =>
              match lookupF fs "jheUserId" with
              | none => none
              | some _ =>
                some (hset h nx (.pdict (
                  [("organizationId", org), ("nameGiven", .vstr given),
                   ("nameFamily", .vstr family)]
                  ++ (if pvTruthy h phone then
                        [("telecomPhone", .vstr phonePlaceholder)] else [])
                  ++ (if pvTruthy h email then
                        [("telecomEmail", .vstr (emailOf given family))] else [])
                  ++ [("birthDate", .vstr bdate)]
                  ++ (if pvTruthy h ident then
                        [("identifier", .vstr uuid)] else [])
                  ++ [("id", .vint newId),
                      ("jheUserId", .vint newUserId)])), nx, nx + 1)
  | _ => none

/-- The `for identifier in observation["identifier"]` loop: writes a
generated uuid string into the `value` slot of each element (each must
be a dict reference, else Python raises a `TypeError`). -/
def setIdentVals (uuids : Nat → Str) : Nat → List PVal → Heap → Option Heap
  | _, [], h => some h
  | i, .vref d :: rest, h =>
    match hSetField h d "value" (.vstr (uuids i)) with
    | none => none
    | some h₂ => setIdentVals uuids (i + 1) rest h₂
  | _, _ :: _, _ => none

theorem setIdentVals_spec (uuids : Nat → Str) (lo hi : Nat) :
    ∀ items i h h', RegionOk h lo hi → (∀ x ∈ items, valOk lo hi x) →
      setIdentVals uuids i items h = some h' →
      RegionOk h' lo hi ∧ (∀ b, b < lo → h' b = h b) ∧
        (∀ b, hi ≤ b → h' b = h b) := by
  intro items
  induction items with
  | nil =>
    intro i h h' hreg hval hrun
    simp only [setIdentVals, Option.some_inj] at hrun
    subst hrun
    exact ⟨hreg, fun b _ => rfl, fun b _ => rfl⟩
  | cons x rest ih =>
    intro i h h' hreg hval hrun
    cases x with
    | vref d =>
      simp only [setIdentVals] at hrun
      split at hrun
      · exact Option.noConfusion hrun
      · rename_i h₂ hsf
        have hd : lo ≤ d ∧ d < hi := hval (.vref d) (List.mem_cons_self _ _)
        have hreg₂ : RegionOk h₂ lo hi :=
          hSetField_region h lo hi d "value" (.vstr (uuids i)) h₂ hreg
            trivial hsf
        have hframe := hSetField_frame h d "value" (.vstr (uuids i)) h₂ hsf
        obtain ⟨r1, r2, r3⟩ := ih (i + 1) h₂ h' hreg₂
          (fun y hy => hval y (List.mem_cons_of_mem _ hy)) hrun
        refine ⟨r1, ?_, ?_⟩
        · intro b hb
          rw [r2 b hb, hframe b (by omega)]
        · intro b hb
          rw [r3 b hb, hframe b (by omega)]
    | vstr s => simp [setIdentVals] at hrun
    | vint n => simp [setIdentVals] at hrun
    | vnum q => simp [setIdentVals] at hrun
    | vnull => simp [setIdentVals] at hrun

/-- `anonymize_observation` on the heap: deep-copies the input record,
then mutates only the copy — overwrites its `id`, the `value` of each
entry of its `identifier` list, the `subject.reference` string (parsed
as `kind/id`, re-serialized with the synthetic id), and the
`valueAttachment.data` payload (the base64/JSON noise pipeline is the
pure `noiseBody`/`anonHeader` embedding; here it is the parameter
`rewriteData`).  Synthetic ids and uuids are parameters. -/
def heapAnonObservation (fuel : Nat) (newObsId : Int) (uuids : Nat → Str)
    (subjNewId : Int) (rewriteData : Str → Str)
    (h : Heap) (root nx : Nat) : Option (Heap × Nat × Nat) :=
  match dcopyV h fuel (.vref root) h nx with
  | some (.vref r, h₁, nx₁) =>
    match hGetField h₁ r "id" with
    | none => none
    | some _ =>
      match hSetField h₁ r "id" (.vint newObsId) with
      | none => none
      | some h₂ =>
        match hGetField h₂ r "identifier" with
        | some (.vref la) =>
          match h₂ la with
          | some (.plist items) =>
            match setIdentVals uuids 0 items h₂ with
            | none => none
            | some h₃ =>
              match hGetField h₃ r "subject" with
              | some (.vref sd) =>
                match hGetField h₃ sd "reference" with
                | some (.vstr ref) =>
                  match pyInt ((partitionFirst '/' ref).2.getD []) with
                  | none => none
                  | some _ =>
                    match hSetField h₃ sd "reference"
                        (.vstr ((partitionFirst '/' ref).1 ++
                          '/' :: intToStr subjNewId)) with
                    | none => none
                    | some h₄ =>
                      match hGetField h₄ r "valueAttachment" with
                      | some (.vref va) =>
                        match hGetField h₄ va "data" with
                        | some (.vstr data) =>
                          match hSetField h₄ va "data"
                              (.vstr (rewriteData data)) with
                          | none => none
                          | some h₅ => some (h₅, r, nx₁)
                        | _ => none
                      | _ => none
                | _ => none
              | _ => none
          | _ => none
        | _ => none
  | _ => none

/-- **C7**: for every input record, each of `anonymize_user`,
`anonymize_patient`, and `anonymize_observation` leaves the caller's
original record unmodified: every heap address that existed before
the call (below the allocation frontier `nx` — in particular the
record's root and all its nested objects: identifier list, subject,
valueAttachment) holds exactly the object it held before.  The user
and patient transforms build a brand new dict; the observation
transform deep-copies first and mutates only the copy region. -/
theorem C7_non_mutation :
    (∀ fn ln nid h root nx h' r' nx',
        heapAnonUser fn ln nid h root nx = some (h', r', nx') →
        ∀ a, a < nx → h' a = h a) ∧
    (∀ gv fm bd uu nid nuid h root nx h' r' nx',
        heapAnonPatient gv fm bd uu nid nuid h root nx = some (h', r', nx') →
        ∀ a, a < nx → h' a = h a) ∧
    (∀ fuel nid uuids sid rwd h root nx h' r' nx',
        heapAnonObservation fuel nid uuids sid rwd h root nx =
          some (h', r', nx') →
        ∀ a, a < nx → h' a = h a) := by
  refine ⟨?_, ?_, ?_⟩
  · intro fn ln nid h root nx h' r' nx' hrun a ha
    simp only [heapAnonUser] at hrun
    split at hrun <;> try exact Option.noConfusion hrun
    rename_i fs hfs
    split at hrun <;> try exact Option.noConfusion hrun
    simp only [Option.some_inj, Prod.mk.injEq] at hrun
    obtain ⟨h1, h2, h3⟩ := hrun
    rw [← h1]
    simp only [hset, if_neg (show ¬a = nx by omega)]
  · intro gv fm bd uu nid nuid h root nx h' r' nx' hrun a ha
    simp only [heapAnonPatient] at hrun
    split at hrun <;> try exact Option.noConfusion hrun
    rename_i fs hfs
    split at hrun <;> try exact Option.noConfusion hrun
    split at hrun <;> try exact Option.noConfusion hrun
    split at hrun <;> try exact Option.noConfusion hrun
    split at hrun <;> try exact Option.noConfusion hrun
    split at hrun <;> try exact Option.noConfusion hrun
    split at hrun <;> try exact Option.noConfusion hrun
    simp only [Option.some_inj, Prod.mk.injEq] at hrun
    obtain ⟨h1, h2, h3⟩ := hrun
    rw [← h1]
    simp only [hset, if_neg (show ¬a = nx by omega)]
  · intro fuel nid uuids sid rwd h root nx h' r' nx' hrun a ha
    simp only [heapAnonObservation] at hrun
    split at hrun <;> try exact Option.noConfusion hrun
    rename_i r h₁ nx₁ hcopy
    obtain ⟨g1, g2, g3, g4, g5⟩ :=
      (dcopy_spec h fuel).1 (.vref root) h nx (.vref r) h₁ nx₁ hcopy
    obtain ⟨hr1, hr2⟩ := g4
    split at hrun <;> try exact Option.noConfusion hrun
    rename_i idv hid
    split at hrun <;> try exact Option.noConfusion hrun
    rename_i h₂ hw2
    have hreg₂ : RegionOk h₂ nx nx₁ :=
      hSetField_region h₁ nx nx₁ r "id" (.vint nid) h₂ g5 trivial hw2
    have hfr₂ := hSetField_frame h₁ r "id" (.vint nid) h₂ hw2
    split at hrun <;> try exact Option.noConfusion hrun
    rename_i la hga
    have hla := region_get_ref h₂ nx nx₁ r "identifier" la hreg₂ hr1 hr2 hga
    split at hrun <;> try exact Option.noConfusion hrun
    rename_i items hitems
    have hvals := region_list h₂ nx nx₁ la items hreg₂ hla.1 hla.2 hitems
    split at hrun <;> try exact Option.noConfusion hrun
    rename_i h₃ hw3
    obtain ⟨hreg₃, hlow₃, hhigh₃⟩ :=
      setIdentVals_spec uuids nx nx₁ items 0 h₂ h₃ hreg₂ hvals hw3
    split at hrun <;> try exact Option.noConfusion hrun
    rename_i sd hgsd
    have hsd := region_get_ref h₃ nx nx₁ r "subject" sd hreg₃ hr1 hr2 hgsd
    split at hrun <;> try exact Option.noConfusion hrun
    rename_i ref hgref
    split at hrun <;> try exact Option.noConfusion hrun
    rename_i pid hpid
    split at hrun <;> try exact Option.noConfusion hrun
    rename_i h₄ hw4
    have hfr₄ := hSetField_frame h₃ sd "reference" _ h₄ hw4
    have hreg₄ : RegionOk h₄ nx nx₁ :=
      hSetField_region h₃ nx nx₁ sd "reference"
        (.vstr ((partitionFirst '/' ref).1 ++ '/' :: intToStr sid)) h₄
        hreg₃ trivial hw4
    split at hrun <;> try exact Option.noConfusion hrun
    rename_i va hgva
    have hva := region_get_ref h₄ nx nx₁ r "valueAttachment" va hreg₄
      hr1 hr2 hgva
    split at hrun <;> try exact Option.noConfusion hrun
    rename_i data hgdata
    split at hrun <;> try exact Option.noConfusion hrun
    rename_i h₅ hw5
    have hfr₅ := hSetField_frame h₄ va "data" _ h₅ hw5
    simp only [Option.some_inj, Prod.mk.injEq] at hrun
    obtain ⟨h1, h2, h3⟩ := hrun
    rw [← h1, hfr₅ a (by omega), hfr₄ a (by omega), hlow₃ a ha,
      hfr₂ a (by omega), g2 a ha]

/-- Concrete pre-call heap: a user record at 0, a patient record at 1,
an observation record at 2 with its identifier list at 3, identifier
entry at 4, subject at 5 and valueAttachment at 6; frontier 7. -/
def c7Heap : Heap := fun a =>
  if a = 0 then some (.pdict [("id", .vint 10001)])
  else if a = 1 then some (.pdict
    [("organizationId", .vint 20026),
     ("telecomPhone", .vstr (strC "(801) 555-1233")),
     ("telecomEmail", .vstr (strC "heather.williams@example.edu")),
     ("identifier", .vstr (strC "some-external-id")),
     ("id", .vint 45439), ("jheUserId", .vint 19259)])
  else if a = 2 then some (.pdict
    [("id", .vstr (strC "54321")), ("identifier", .vref 3),
     ("subject", .vref 5), ("valueAttachment", .vref 6)])
  else if a = 3 then some (.plist [.vref 4])
  else if a = 4 then some (.pdict [("value", .vstr (strC "abc-123"))])
  else if a = 5 then some (.pdict
    [("reference", .vstr (strC "Patient/12345"))])
  else if a = 6 then some (.pdict [("data", .vstr (strC "xx"))])
  else none

/-- **C7 witness**: all three transforms run to completion on the
concrete heap and leave the caller's objects in place — the user
root, the patient root, and a nested identifier entry of the
observation are bitwise unchanged. -/
theorem C7_witness :
    (match heapAnonUser (strC "Ga") (strC "Fa") 10500 c7Heap 0 7 with
     | some out => out.1 0 = c7Heap 0
     | none => False) ∧
    (match heapAnonPatient (strC "Ga") (strC "Fa") (strC "1990-01-01")
        (strC "u-u-i-d-1") 41000 10500 c7Heap 1 7 with
     | some out => out.1 1 = c7Heap 1
     | none => False) ∧
    (match heapAnonObservation 32 60007 (fun _ => strC "u-u-i-d-2")
        41000 (fun _ => strC "YY") c7Heap 2 7 with
     | some out => out.1 4 = c7Heap 4
     | none => False) := by
  refine ⟨?_, ?_, ?_⟩
  · rcases hres : heapAnonUser (strC "Ga") (strC "Fa") 10500 c7Heap 0 7
      with _ | ⟨h', r', nx'⟩
    · have hs : (heapAnonUser (strC "Ga") (strC "Fa") 10500
          c7Heap 0 7).isSome = true := by decide
      rw [hres] at hs
      simp at hs
    · show h' 0 = c7Heap 0
      exact C7_non_mutation.1 (strC "Ga") (strC "Fa") 10500 c7Heap 0 7
        h' r' nx' hres 0 (by omega)
  · rcases hres : heapAnonPatient (strC "Ga") (strC "Fa")
      (strC "1990-01-01") (strC "u-u-i-d-1") 41000 10500 c7Heap 1 7
      with _ | ⟨h', r', nx'⟩
    · have hs : (heapAnonPatient (strC "Ga") (strC "Fa")
          (strC "1990-01-01") (strC "u-u-i-d-1") 41000 10500
          c7Heap 1 7).isSome = true := by decide
      rw [hres] at hs
      simp at hs
    · show h' 1 = c7Heap 1
      exact C7_non_mutation.2.1 (strC "Ga") (strC "Fa")
        (strC "1990-01-01") (strC "u-u-i-d-1") 41000 10500 c7Heap 1 7
        h' r' nx' hres 1 (by omega)
  · rcases hres : heapAnonObservation 32 60007 (fun _ => strC "u-u-i-d-2")
      41000 (fun _ => strC "YY") c7Heap 2 7 with _ | ⟨h', r', nx'⟩
    · have hs : (heapAnonObservation 32 60007 (fun _ => strC "u-u-i-d-2")
          41000 (fun _ => strC "YY") c7Heap 2 7).isSome = true := by decide
      rw [hres] at hs
      simp at hs
    · show h' 4 = c7Heap 4
      exact C7_non_mutation.2.2 32 60007 (fun _ => strC "u-u-i-d-2")
        41000 (fun _ => strC "YY") c7Heap 2 7 h' r' nx' hres 4 (by omega)

end JH
